import Mathlib

/-!
# Security-rule compilation of the SDN agent

A shallow embedding of `pkg/agent/utils/securityrules.go`: the port-range
decomposition `PortRangeToMasks`, the match compilation `SecurityRule.OvsMatches`
and the policy assembly `NewSecurityRules`, followed by the properties proved
about them.

Machine integers are natural numbers with explicit reduction modulo `2 ^ 16`
or `2 ^ 32`; a Go `nil` slice or pointer is `none`; a Go `(value, error)`
result is an `Except`.  The two loops of `PortRangeToMasks` are driven by a
fuel counter and return `none` when it runs out.
-/

namespace secrules

/-- Modelled from the spec: the direction type of the external rule package
(`secrules.TSecurityRuleDirection`), whose declaration is not part of the
sources.  The data model gives a parsed rule exactly two directions. -/
inductive TSecurityRuleDirection where
  | DIR_IN
  | DIR_OUT
  deriving DecidableEq

/-- Modelled from the spec: the action type of the external rule package
(`secrules.TSecurityRuleAction`); a rule either allows or denies. -/
inductive TSecurityRuleAction where
  | SecurityRuleAllow
  | SecurityRuleDeny
  deriving DecidableEq

/-- Modelled from the spec: protocol name `any` of the external rule package. -/
def PROTO_ANY : String := "any"

/-- Modelled from the spec: protocol name `tcp` of the external rule package. -/
def PROTO_TCP : String := "tcp"

/-- Modelled from the spec: protocol name `udp` of the external rule package. -/
def PROTO_UDP : String := "udp"

/-- Modelled from the spec: protocol name `icmp` of the external rule package. -/
def PROTO_ICMP : String := "icmp"

/-- The values of a Go `net.IPNet` that the match compilation reads:
`netStr` is `IPNet.String()`, `ipStr` is `IPNet.IP.String()` and
`(ones, bits)` is `IPNet.Mask.Size()`. -/
structure IPNet where
  netStr : String
  ipStr : String
  ones : Nat
  bits : Nat
  deriving DecidableEq

/-- Modelled from the spec: the structured rule record produced by the external
clause parser (`secrules.SecurityRule`): direction, action, protocol, optional
address, explicit port list and port range.  An absent address is `none`. -/
structure SecurityRule where
  Priority : Int
  Action : TSecurityRuleAction
  IPNet : Option IPNet
  Protocol : String
  Direction : TSecurityRuleDirection
  PortStart : Int
  PortEnd : Int
  Ports : List Int
  Description : String
  deriving DecidableEq

/-- Modelled from the spec: `IsWildMatch` of the external rule package, true iff
the rule has no address restriction, protocol `any`, and no port restriction of
any kind (no explicit port and no port range). -/
def SecurityRule.IsWildMatch (r : SecurityRule) : Bool :=
  r.IPNet.isNone && (r.Protocol == PROTO_ANY) && r.Ports.isEmpty &&
    (r.PortStart == 0) && (r.PortEnd == 0)

end secrules

namespace utils

open secrules
open secrules.TSecurityRuleDirection
open secrules.TSecurityRuleAction

/-! ## Machine integers and formatting -/

/-- Truncation to a Go `uint32`. -/
def u32 (x : Nat) : Nat := x % 2 ^ 32

/-- Truncation to a Go `uint16`. -/
def u16 (x : Nat) : Nat := x % 2 ^ 16

/-- Conversion `uint16(x)` of a Go `int`. -/
def toU16 (x : Int) : Nat := (x % 65536).toNat

/-- Go `%x` of an unsigned integer: lowercase hexadecimal without padding. -/
def hex (n : Nat) : String := String.mk (Nat.toDigits 16 n)

/-! ## PortRangeToMasks -/

/-- The inner loop of `PortRangeToMasks`:
`for (sp+b) <= ep && (sp&(b-1)) == 0 { b <<= 1 }` on `uint32` values.
Returns the value of `b` at loop exit, `none` when the fuel is used up first. -/
def growBlock : Nat → Nat → Nat → Nat → Option Nat
  | 0, _, _, _ => none
  | fuel + 1, sp, ep, b =>
    if u32 (sp + b) ≤ ep ∧ sp &&& u32 (b + (2 ^ 32 - 1)) = 0 then
      growBlock fuel sp ep (u32 (b <<< 1))
    else some b

/-- The outer loop of `PortRangeToMasks`: `for sp < ep { ... }`, with `r` the
slice built so far; `none` when the fuel is used up first.  Every run of the inner
loop gets fuel 33, one more than the number of doublings of a `uint32`. -/
def maskLoop : Nat → Nat → Nat → List (Nat × Nat) → Option (List (Nat × Nat))
  | 0, _, _, _ => none
  | fuel + 1, sp, ep, r =>
    if sp < ep then
      match growBlock 33 sp ep 1 with
      | none => none
      | some b0 =>
        let b := b0 >>> 1
        maskLoop fuel (u32 (sp + b)) ep
          (r ++ [(u16 sp, u16 (u32 (b + (2 ^ 32 - 1)) ^^^ (2 ^ 32 - 1)))])
    else some r

/-- `PortRangeToMasks(s, e uint16) [][2]uint16`; the arguments are 16-bit
values.  The outer loop gets fuel 65537, one more than the widest range has ports;
`PortRangeToMasks_total` shows that no 16-bit input uses it up. -/
def PortRangeToMasks (s e : Nat) : Option (List (Nat × Nat)) :=
  if s = e then some ([] ++ [(s, 0xFFFF)])
  else maskLoop 65537 s (u32 (e + 1)) []

/-! ## SecurityRule and OvsMatches -/

/-- The rule record of the agent: the parsed rule and the cache of compiled
match strings (`none` is the `nil` slice). -/
structure SecurityRule where
  r : secrules.SecurityRule
  ovsMatches : Option (List String)
  deriving DecidableEq

/-- `(sr *SecurityRule) Direction()`. -/
def SecurityRule.Direction (sr : SecurityRule) : TSecurityRuleDirection := sr.r.Direction

/-- `(sr *SecurityRule) OvsActionAllow()`. -/
def SecurityRule.OvsActionAllow (sr : SecurityRule) : Bool :=
  sr.r.Action == SecurityRuleAllow

/-- `(sr *SecurityRule) IsWildMatch()`, over the wild-match test `isWild` of the
external rule package. -/
def SecurityRule.IsWildMatch (isWild : secrules.SecurityRule → Bool) (sr : SecurityRule) :
    Bool :=
  isWild sr.r

/-- The loop over the blocks of a port range in `OvsMatches`: an exact block
gives a decimal port, a block with mask 0 leaves the loop, any other block
gives `base/mask` in hexadecimal (base 0 is written `0`). -/
def rangeTokens (tpField : String) : List (Nat × Nat) → List String
  | [] => []
  | m :: ms =>
    if m.2 = 0xffff then
      (tpField ++ toString m.1) :: rangeTokens tpField ms
    else if m.2 = 0 then
      []
    else
      let vs := if m.1 = 0 then "0" else "0x" ++ hex m.1
      (tpField ++ vs ++ "/0x" ++ hex m.2) :: rangeTokens tpField ms

/-- The direction switch of `OvsMatches`: the field names
`(nwField, v6Field, tpField)`. -/
def directionFields (d : TSecurityRuleDirection) : String × String × String :=
  match d with
  | DIR_IN => ("ip,nw_src=", "ipv6,ipv6_src=", "tp_dst=")
  | DIR_OUT => ("ip,nw_dst=", "ipv6,ipv6_dst=", "tp_dst=")

/-- The address step of `OvsMatches` (`if r.IPNet != nil { ... }`): the pair
`(nwProto, nwMatch)`, both empty without an address.  `MatchCIDR6` is the
address-family test of the external package `regutils`. -/
def addressMatch (MatchCIDR6 : String → Bool) (nwField v6Field : String)
    (ipnet : Option IPNet) : String × String :=
  match ipnet with
  | none => ("", "")
  | some n =>
    if MatchCIDR6 n.netStr then
      ("ipv6", if n.ones = 128 ∧ n.bits = 128 then v6Field ++ n.ipStr else v6Field ++ n.netStr)
    else
      ("ip", if n.ones = 32 ∧ n.bits = 32 then nwField ++ n.ipStr else nwField ++ n.netStr)

/-- The protocol switch of `OvsMatches` (`switch r.Protocol { ... }`): the pair
`(protoMatch, tpMatch)`. -/
def protocolMatch (r : secrules.SecurityRule) (tpField nwProto nwMatch : String) :
    Option (String × List String) :=
  if r.Protocol = PROTO_ANY then
    some ("", if nwMatch.length = 0 then [] ++ ["ipv6", "ip"] else [])
  else if r.Protocol = PROTO_TCP ∨ r.Protocol = PROTO_UDP then
    let tp1 := r.Ports.map (fun p => tpField ++ toString p)
    if 0 < r.PortStart ∧ r.PortStart ≤ r.PortEnd then
      match PortRangeToMasks (toU16 r.PortStart) (toU16 r.PortEnd) with
      | none => none
      | some ms => some (r.Protocol, tp1 ++ rangeTokens tpField ms)
    else some (r.Protocol, tp1)
  else if r.Protocol = PROTO_ICMP then
    if nwProto = "ipv6" then some ("icmp6", [])
    else if nwProto = "ip" then some ("icmp", [])
    else some ("", [] ++ ["icmp", "icmp6"])
  else some (r.Protocol, [])

/-- The final step of `OvsMatches`: the base conjunction `m` of `nwMatch` and
`protoMatch`, alone when `tpMatch` is empty, otherwise joined to every element of
`tpMatch`. -/
def joinMatches (nwMatch protoMatch : String) (tpMatch : List String) : List String :=
  let m0 := if 0 < nwMatch.length then nwMatch else ""
  let m :=
    if 0 < protoMatch.length then
      (if 0 < m0.length then m0 ++ "," else m0) ++ protoMatch
    else m0
  if tpMatch.length = 0 then [m]
  else [] ++ tpMatch.map (fun tpm => if 0 < m.length then m ++ "," ++ tpm else tpm)

/-- The computation of `OvsMatches` on a record whose cache is empty: the
direction switch, the address step, the protocol switch and the final step. -/
def computeMatches (MatchCIDR6 : String → Bool) (r : secrules.SecurityRule) :
    Option (List String) :=
  let fields := directionFields r.Direction
  let nw := addressMatch MatchCIDR6 fields.1 fields.2.1 r.IPNet
  match protocolMatch r fields.2.2 nw.1 nw.2 with
  | none => none
  | some pt => some (joinMatches nw.2 pt.1 pt.2)

/-- `(sr *SecurityRule) OvsMatches()`: the cached list when the cache is filled,
otherwise the computed list, which is stored in the record.  The result is the
returned list and the record after the call. -/
def SecurityRule.OvsMatches (MatchCIDR6 : String → Bool) (sr : SecurityRule) :
    Option (List String × SecurityRule) :=
  match sr.ovsMatches with
  | some cached => some (cached, sr)
  | none =>
    match computeMatches MatchCIDR6 sr.r with
    | none => none
    | some ms => some (ms, { sr with ovsMatches := some ms })

/-! ## NewSecurityRule and NewSecurityRules -/

/-- Go `unicode.IsSpace`. -/
def isSpace (c : Char) : Bool :=
  let n := c.toNat
  n = 0x09 ∨ n = 0x0A ∨ n = 0x0B ∨ n = 0x0C ∨ n = 0x0D ∨ n = 0x20 ∨ n = 0x85 ∨ n = 0xA0 ∨
    n = 0x1680 ∨ (0x2000 ≤ n ∧ n ≤ 0x200A) ∨ n = 0x2028 ∨ n = 0x2029 ∨ n = 0x202F ∨
    n = 0x205F ∨ n = 0x3000

/-- Go `strings.TrimSpace`: the string without its leading and trailing white space. -/
def TrimSpace (s : String) : String :=
  String.mk (((s.data.dropWhile isSpace).reverse.dropWhile isSpace).reverse)

/-- Splitting a character list at every occurrence of `sep`; `cur` holds the
current piece in reverse. -/
def splitChars (sep : Char) : List Char → List Char → List (List Char)
  | [], cur => [cur.reverse]
  | c :: cs, cur =>
    if c = sep then cur.reverse :: splitChars sep cs []
    else splitChars sep cs (c :: cur)

/-- Go `strings.Split(s, sep)` for a one-character separator. -/
def Split (s : String) (sep : Char) : List String :=
  (splitChars sep s.data []).map String.mk

/-- `NewSecurityRule(s string) (*SecurityRule, error)`, over the clause parser
`parse` of the external rule package (`secrules.ParseSecurityRule`). -/
def NewSecurityRule (parse : String → Except String secrules.SecurityRule) (s : String) :
    Except String SecurityRule :=
  let s := TrimSpace s
  match parse s with
  | .error err => .error err
  | .ok r => .ok { r := r, ovsMatches := none }

/-- The two rule sequences of a policy.  An element is a pointer to a record;
`none` is the `nil` pointer. -/
structure SecurityRules where
  inRules : List (Option SecurityRule)
  outRules : List (Option SecurityRule)
  inOvsMatches : Option (List String)
  outOvsMatches : Option (List String)
  outAllowAny : Bool
  deriving DecidableEq

/-- The loop of `NewSecurityRules` over the segments of the policy text:
each non-blank segment is parsed and appended to the sequence of its direction;
the first parse error ends the loop. -/
def collectRules (parse : String → Except String secrules.SecurityRule) :
    List String → List SecurityRule → List SecurityRule →
      Except String (List SecurityRule × List SecurityRule)
  | [], inRules, outRules => .ok (inRules, outRules)
  | seg :: rest, inRules, outRules =>
    let sr := TrimSpace seg
    if sr.length = 0 then collectRules parse rest inRules outRules
    else
      match NewSecurityRule parse sr with
      | .error err => .error err
      | .ok r =>
        match r.Direction with
        | DIR_IN => collectRules parse rest (inRules ++ [r]) outRules
        | DIR_OUT => collectRules parse rest inRules (outRules ++ [r])

/-- The default completion of one direction in `NewSecurityRules`:
`if l := len(rules); l == 0 || (l > 0 && !rules[l-1].IsWildMatch())` then the
record parsed from `clause` is appended, its parse error being dropped. -/
def completeRules (parse : String → Except String secrules.SecurityRule)
    (isWild : secrules.SecurityRule → Bool) (clause : String) (rules : List SecurityRule) :
    List (Option SecurityRule) :=
  let needs : Bool :=
    match rules.getLast? with
    | none => true
    | some last => !(last.IsWildMatch isWild)
  if needs then rules.map some ++ [(NewSecurityRule parse clause).toOption]
  else rules.map some

/-- `NewSecurityRules(s string) (*SecurityRules, error)`. -/
def NewSecurityRules (parse : String → Except String secrules.SecurityRule)
    (isWild : secrules.SecurityRule → Bool) (s : String) : Except String SecurityRules :=
  match collectRules parse (Split s ';') [] [] with
  | .error err => .error err
  | .ok (inRules, outRules) =>
    .ok {
      inRules := completeRules parse isWild "in:deny any" inRules
      outRules := completeRules parse isWild "out:allow any" outRules
      inOvsMatches := none
      outOvsMatches := none
      outAllowAny := false }

/-! ## Specification-side definitions -/

/-- Trial size `2 ^ j` passes the test of the inner loop at position `sp`:
the block ends at or before the exclusive bound `ep` and `sp` is aligned to it. -/
def fits (sp ep j : Nat) : Prop := sp + 2 ^ j ≤ ep ∧ 2 ^ j ∣ sp

/-- A greedy chain of blocks from `sp` up to the exclusive bound `ep`: every block
starts where the previous one ended, has the largest size `2 ^ k` that fits at its
start, and carries the mask `(2 ^ 16 - 2 ^ k) % 2 ^ 16`. -/
inductive Blocks (ep : Nat) : Nat → List (Nat × Nat) → Prop
  | done : Blocks ep ep []
  | step (sp k : Nat) (l : List (Nat × Nat)) : sp < ep → k ≤ 16 → fits sp ep k →
      ¬ fits sp ep (k + 1) → Blocks ep (sp + 2 ^ k) l →
      Blocks ep sp ((sp, (2 ^ 16 - 2 ^ k) % 2 ^ 16) :: l)

/-- A non-minimal cover of the ports 10..19 by aligned blocks. -/
def sampleCover : List (Nat × Nat) :=
  [(10, 0xFFFE), (12, 0xFFFC), (16, 0xFFFF), (17, 0xFFFF), (18, 0xFFFE)]

/-- The clauses of a list of segments, in the spec's words: every segment is
trimmed and the empty ones are discarded. -/
def clausesOf (segs : List String) : List String :=
  (segs.map TrimSpace).filter (fun seg => seg.length ≠ 0)

/-- The clauses of a policy text: its `;`-separated segments, trimmed, without
the empty ones. -/
def clauses (s : String) : List String := clausesOf (Split s ';')

/-- The error of the first clause of the list that the clause parser rejects. -/
def firstError (parse : String → Except String secrules.SecurityRule) :
    List String → Option String
  | [] => none
  | seg :: rest =>
    match NewSecurityRule parse seg with
    | .error err => some err
    | .ok _ => firstError parse rest

/-- The records of the clauses that the clause parser accepts, in source order. -/
def parsedRecords (parse : String → Except String secrules.SecurityRule)
    (cl : List String) : List SecurityRule :=
  cl.filterMap (fun seg => (NewSecurityRule parse seg).toOption)

/-- The records of one direction, in the order of the list. -/
def ofDirection (d : TSecurityRuleDirection) (recs : List SecurityRule) : List SecurityRule :=
  recs.filter (fun sr => sr.Direction = d)

/-- A direction needs a synthesized terminal record, in the spec's words: its
sequence is empty or its last record is not a wild match. -/
def needsTerminal (isWild : secrules.SecurityRule → Bool) (recs : List SecurityRule) : Prop :=
  recs = [] ∨ ∃ last, recs.getLast? = some last ∧ last.IsWildMatch isWild = false

/-- The address token of a rule, in the spec's words: the source-address field for
an inbound rule and the destination-address field for an outbound rule, in the
IPv4 or the IPv6 variant, followed by the bare address when the network is a single
host (/32 or /128) and by `address/prefixlen` otherwise; `none` without an address. -/
def addressToken (MatchCIDR6 : String → Bool) (r : secrules.SecurityRule) : Option String :=
  match r.IPNet with
  | none => none
  | some n =>
    let v6 := MatchCIDR6 n.netStr
    let field :=
      match r.Direction, v6 with
      | DIR_IN, false => "ip,nw_src="
      | DIR_IN, true => "ipv6,ipv6_src="
      | DIR_OUT, false => "ip,nw_dst="
      | DIR_OUT, true => "ipv6,ipv6_dst="
    let width := if v6 then 128 else 32
    some (field ++ (if n.ones = width ∧ n.bits = width then n.ipStr else n.netStr))

/-- The base conjunction of a rule with protocol token `proto`, in the spec's
words: the address token, then the protocol token, comma-joined, absent parts
omitted. -/
def baseConjunction (MatchCIDR6 : String → Bool) (r : secrules.SecurityRule)
    (proto : String) : String :=
  match addressToken MatchCIDR6 r with
  | none => proto
  | some a => if proto = "" then a else a ++ "," ++ proto

/-- The rendering of one block of a port range, in the spec's words: the decimal
base for the mask `0xFFFF`, `0x<hex base>/0x<hex mask>` for any other mask. -/
def renderBlock (b : Nat × Nat) : String :=
  if b.2 = 0xFFFF then toString b.1 else "0x" ++ hex b.1 ++ "/0x" ++ hex b.2

/-- A parsed rule without address and ports, for concrete instances. -/
def sampleRule (d : TSecurityRuleDirection) (a : TSecurityRuleAction) (proto : String) :
    secrules.SecurityRule :=
  { Priority := 1, Action := a, IPNet := none, Protocol := proto, Direction := d,
    PortStart := 0, PortEnd := 0, Ports := [], Description := "" }

/-- The IPv4 network 10.0.0.0/24 as the match compilation sees it. -/
def sampleNet : IPNet :=
  { netStr := "10.0.0.0/24", ipStr := "10.0.0.0", ones := 24, bits := 32 }

/-- A stand-in for the external clause parser that knows a handful of clauses and
rejects every other text; it instantiates the parser argument at concrete inputs. -/
def sampleParse (s : String) : Except String secrules.SecurityRule :=
  if s = "in:deny any" then .ok (sampleRule DIR_IN SecurityRuleDeny "any")
  else if s = "out:allow any" then .ok (sampleRule DIR_OUT SecurityRuleAllow "any")
  else if s = "in:allow any" then .ok (sampleRule DIR_IN SecurityRuleAllow "any")
  else if s = "in:allow tcp,port_range=10-19" then
    .ok { sampleRule DIR_IN SecurityRuleAllow "tcp" with PortStart := 10, PortEnd := 19 }
  else if s = "in:allow tcp,ports=80 10.0.0.0/24" then
    .ok { sampleRule DIR_IN SecurityRuleAllow "tcp" with
          IPNet := some sampleNet,
          Ports := [80] }
  else .error ("invalid rule: " ++ s)

/-- The rule set built from the text `in:allow tcp,port_range=10-19` with
`sampleParse`: the author's record, then the synthesized inbound deny-all; the
synthesized outbound allow-all alone. -/
def sampleRules : SecurityRules :=
  { inRules := [
      some { r := { sampleRule DIR_IN SecurityRuleAllow "tcp" with PortStart := 10, PortEnd := 19 },
             ovsMatches := none },
      some { r := sampleRule DIR_IN SecurityRuleDeny "any", ovsMatches := none }],
    outRules := [some { r := sampleRule DIR_OUT SecurityRuleAllow "any", ovsMatches := none }],
    inOvsMatches := none, outOvsMatches := none, outAllowAny := false }

/-- A stand-in for the address-family test of the external package `regutils`:
a text with a colon is an IPv6 network. -/
def sampleMatchCIDR6 (s : String) : Bool := s.data.contains ':'

/-! ## The decomposition loops -/

theorem pow_le_of_le17 {j : Nat} (hj : j ≤ 17) : 2 ^ j ≤ 131072 := by
  have h := Nat.pow_le_pow_right (show 0 < 2 by decide) hj
  simpa using h

theorem growBlock_cond (sp ep j : Nat) (hsp : sp ≤ 65536) (hj : j ≤ 17) :
    (u32 (sp + 2 ^ j) ≤ ep ∧ sp &&& u32 (2 ^ j + (2 ^ 32 - 1)) = 0) ↔ fits sp ep j := by
  have h1 := pow_le_of_le17 hj
  have h0 : 0 < 2 ^ j := Nat.two_pow_pos j
  have e1 : u32 (sp + 2 ^ j) = sp + 2 ^ j := by
    unfold u32; apply Nat.mod_eq_of_lt; omega
  have e2 : u32 (2 ^ j + (2 ^ 32 - 1)) = 2 ^ j - 1 := by
    unfold u32
    have : 2 ^ j + (2 ^ 32 - 1) = (2 ^ j - 1) + 2 ^ 32 := by omega
    rw [this, Nat.add_mod_right]; apply Nat.mod_eq_of_lt; omega
  rw [e1, e2, Nat.and_pow_two_sub_one_eq_mod, fits, Nat.dvd_iff_mod_eq_zero]

theorem u32_shl_pow (j : Nat) (hj : j ≤ 16) : u32 (2 ^ j <<< 1) = 2 ^ (j + 1) := by
  have h1 := pow_le_of_le17 (show j + 1 ≤ 17 by omega)
  rw [Nat.shiftLeft_eq, u32, ← Nat.pow_succ]
  apply Nat.mod_eq_of_lt; omega

theorem fits_le16 {sp ep j : Nat} (hep : ep ≤ 65536) (h : fits sp ep j) : j ≤ 16 := by
  by_contra hc
  have h17 : 17 ≤ j := by omega
  have := Nat.pow_le_pow_right (show 0 < 2 by decide) h17
  have h2 := h.1
  norm_num at this
  omega

theorem growBlock_spec (sp ep : Nat) (hsp : sp ≤ 65536) (hep : ep ≤ 65536) :
    ∀ fuel j, j ≤ 17 → 18 ≤ fuel + j →
      ∃ m, j ≤ m ∧ m ≤ 17 ∧ growBlock fuel sp ep (2 ^ j) = some (2 ^ m) ∧
        ¬ fits sp ep m ∧ ∀ i, j ≤ i → i < m → fits sp ep i := by
  intro fuel
  induction fuel with
  | zero => intro j hj hf; omega
  | succ fuel ih =>
    intro j hj hf
    unfold growBlock
    by_cases hc : fits sp ep j
    · have hj16 := fits_le16 hep hc
      rw [if_pos ((growBlock_cond sp ep j hsp hj).2 hc), u32_shl_pow j hj16]
      obtain ⟨m, hm1, hm2, hm3, hm4, hm5⟩ := ih (j + 1) (by omega) (by omega)
      refine ⟨m, by omega, hm2, hm3, hm4, ?_⟩
      intro i hi1 hi2
      by_cases hij : i = j
      · subst hij; exact hc
      · exact hm5 i (by omega) hi2
    · rw [if_neg (fun h => hc ((growBlock_cond sp ep j hsp hj).1 h))]
      exact ⟨j, le_refl _, hj, rfl, hc, fun i h1 h2 => by omega⟩


theorem mask_eq (k : Nat) (hk : k ≤ 16) :
    u16 (u32 (2 ^ k + (2 ^ 32 - 1)) ^^^ (2 ^ 32 - 1)) = (2 ^ 16 - 2 ^ k) % 2 ^ 16 := by
  interval_cases k <;> rfl

theorem fits_zero {sp ep : Nat} (h : sp < ep) : fits sp ep 0 := by
  refine ⟨?_, ?_⟩
  · simp; omega
  · simp

theorem maskLoop_spec (ep : Nat) (hep : ep ≤ 65536) :
    ∀ fuel sp r, sp ≤ ep → ep - sp < fuel →
      ∃ l, maskLoop fuel sp ep r = some (r ++ l) ∧ Blocks ep sp l := by
  intro fuel
  induction fuel with
  | zero => intro sp r _ hf; omega
  | succ fuel ih =>
    intro sp r hsp hf
    unfold maskLoop
    by_cases hlt : sp < ep
    · rw [if_pos hlt]
      obtain ⟨m, _, hm17, hg, hnot, hall⟩ :=
        growBlock_spec sp ep (by omega) hep 33 0 (by omega) (by omega)
      have hm0 : m ≠ 0 := by
        intro h0; subst h0; exact hnot (fits_zero hlt)
      obtain ⟨k, rfl⟩ : ∃ k, m = k + 1 := ⟨m - 1, by omega⟩
      have hfit : fits sp ep k := hall k (by omega) (by omega)
      have hk16 : k ≤ 16 := by omega
      have hb : (2 ^ (k + 1)) >>> 1 = 2 ^ k := by
        rw [Nat.shiftRight_eq_div_pow, Nat.pow_succ]; simp
      simp only [pow_zero] at hg
      rw [hg]
      simp only [hb]
      have hs16 : u16 sp = sp := by unfold u16; apply Nat.mod_eq_of_lt; omega
      have hadd : u32 (sp + 2 ^ k) = sp + 2 ^ k := by
        unfold u32; apply Nat.mod_eq_of_lt; have := hfit.1; omega
      rw [hs16, hadd, mask_eq k hk16]
      obtain ⟨l, hl, hB⟩ := ih (sp + 2 ^ k) (r ++ [(sp, (2 ^ 16 - 2 ^ k) % 2 ^ 16)]) hfit.1
        (by have := Nat.two_pow_pos k; omega)
      refine ⟨(sp, (2 ^ 16 - 2 ^ k) % 2 ^ 16) :: l, ?_, Blocks.step sp k l hlt hk16 hfit hnot hB⟩
      rw [hl]; simp
    · rw [if_neg hlt]
      have : sp = ep := by omega
      subst this
      exact ⟨[], by simp, Blocks.done⟩

theorem PortRangeToMasks_spec (s e : Nat) (hse : s ≤ e) (he : e ≤ 65535) :
    ∃ l, PortRangeToMasks s e = some l ∧ Blocks (e + 1) s l := by
  unfold PortRangeToMasks
  by_cases h : s = e
  · subst h
    rw [if_pos rfl]
    refine ⟨[(s, 0xFFFF)], rfl, ?_⟩
    have := Blocks.step s 0 [] (Nat.lt_succ_self s) (by omega) (fits_zero (Nat.lt_succ_self s))
      (by intro hf; have := hf.1; omega) (by simpa using Blocks.done)
    simpa using this
  · rw [if_neg h]
    have hu : u32 (e + 1) = e + 1 := by unfold u32; apply Nat.mod_eq_of_lt; omega
    rw [hu]
    obtain ⟨l, hl, hB⟩ := maskLoop_spec (e + 1) (by omega) 65537 s [] (by omega) (by omega)
    exact ⟨l, by simpa using hl, hB⟩


theorem PortRangeToMasks_total (s e : Nat) (_hs : s ≤ 65535) (he : e ≤ 65535) :
    ∃ l, PortRangeToMasks s e = some l := by
  by_cases hse : s ≤ e
  · obtain ⟨l, hl, _⟩ := PortRangeToMasks_spec s e hse he
    exact ⟨l, hl⟩
  · refine ⟨[], ?_⟩
    have hu : u32 (e + 1) = e + 1 := by unfold u32; apply Nat.mod_eq_of_lt; omega
    unfold PortRangeToMasks
    rw [if_neg (by omega), hu]
    unfold maskLoop
    rw [if_neg (by omega)]

theorem and_mask (p k : Nat) (hp : p < 65536) (hk : k ≤ 16) :
    p &&& ((2 ^ 16 - 2 ^ k) % 2 ^ 16) = 2 ^ k * (p / 2 ^ k) := by
  have hmask : (2 ^ 16 - 2 ^ k) % 2 ^ 16 = 2 ^ k * (2 ^ (16 - k) - 1) := by
    interval_cases k <;> rfl
  rw [hmask]
  apply Nat.eq_of_testBit_eq
  intro j
  rw [Nat.testBit_and, Nat.testBit_mul_pow_two, Nat.testBit_mul_pow_two,
    Nat.testBit_two_pow_sub_one, ← Nat.shiftRight_eq_div_pow, Nat.testBit_shiftRight]
  by_cases hj : k ≤ j
  · have e1 : k + (j - k) = j := by omega
    rw [e1]
    by_cases hj16 : j < 16
    · have : j - k < 16 - k := by omega
      simp [hj, this]
    · have h2 : p < 2 ^ j :=
        lt_of_lt_of_le hp (by
          have := Nat.pow_le_pow_right (show 0 < 2 by decide) (show 16 ≤ j by omega)
          simpa using this)
      rw [Nat.testBit_lt_two_pow h2]
      simp
  · simp [hj]

theorem match_iff (p b k : Nat) (hp : p < 65536) (hk : k ≤ 16) (hb : 2 ^ k ∣ b) :
    p &&& ((2 ^ 16 - 2 ^ k) % 2 ^ 16) = b ↔ b ≤ p ∧ p < b + 2 ^ k := by
  rw [and_mask p k hp hk]
  obtain ⟨q, rfl⟩ := hb
  have h0 : 0 < 2 ^ k := Nat.two_pow_pos k
  generalize 2 ^ k = c at h0 ⊢
  constructor
  · intro h
    have hq : p / c = q := Nat.eq_of_mul_eq_mul_left h0 h
    subst hq
    have h1 := Nat.div_mul_le_self p c
    have h2 := Nat.lt_div_mul_add (a := p) h0
    rw [Nat.mul_comm] at h1 h2
    exact ⟨h1, h2⟩
  · rintro ⟨h1, h2⟩
    congr 1
    apply Nat.div_eq_of_lt_le
    · rw [Nat.mul_comm]; exact h1
    · rw [Nat.succ_mul, Nat.mul_comm]; exact h2


theorem Blocks_le {ep sp : Nat} {l : List (Nat × Nat)} (h : Blocks ep sp l) : sp ≤ ep := by
  induction h with
  | done => exact le_refl _
  | step sp k l hlt _ _ _ _ _ => omega

theorem Blocks_shape {ep sp : Nat} {l : List (Nat × Nat)} (h : Blocks ep sp l) :
    ∀ bm ∈ l, ∃ k, k ≤ 16 ∧ bm.2 = (2 ^ 16 - 2 ^ k) % 2 ^ 16 ∧ 2 ^ k ∣ bm.1 ∧
      sp ≤ bm.1 ∧ bm.1 + 2 ^ k ≤ ep := by
  induction h with
  | done => intro bm hbm; simp at hbm
  | step sp k l hlt hk hfit _ hB ih =>
    intro bm hbm
    rcases List.mem_cons.1 hbm with rfl | hmem
    · exact ⟨k, hk, rfl, hfit.2, le_refl _, hfit.1⟩
    · obtain ⟨k2, h1, h2, h3, h4, h5⟩ := ih bm hmem
      exact ⟨k2, h1, h2, h3, by have := Nat.two_pow_pos k; omega, h5⟩

theorem Blocks_cover {ep sp : Nat} {l : List (Nat × Nat)} (h : Blocks ep sp l) (p : Nat) (hp : p < 65536) :
    (∃ bm ∈ l, p &&& bm.2 = bm.1) ↔ sp ≤ p ∧ p < ep := by
  induction h with
  | done => simp
  | step sp k l hlt hk hfit _ hB ih =>
    have hle := Blocks_le hB
    have h0 := Nat.two_pow_pos k
    simp only [List.mem_cons, exists_eq_or_imp, ih, match_iff p sp k hp hk hfit.2]
    omega

theorem and_low (p m : Nat) (hm : m < 65536) : p &&& m = (p % 65536) &&& m := by
  apply Nat.eq_of_testBit_eq
  intro j
  rw [Nat.testBit_and, Nat.testBit_and, show (65536 : Nat) = 2 ^ 16 by rfl,
    Nat.testBit_mod_two_pow]
  by_cases hj : j < 16
  · simp [hj]
  · have h2 : m < 2 ^ j :=
      lt_of_lt_of_le hm (by
        have := Nat.pow_le_pow_right (show 0 < 2 by decide) (show 16 ≤ j by omega)
        simpa using this)
    rw [Nat.testBit_lt_two_pow h2]
    simp

theorem Blocks_pairwise {ep sp : Nat} {l : List (Nat × Nat)} (h : Blocks ep sp l) :
    l.Pairwise (fun a b => ∀ p, ¬ (p &&& a.2 = a.1 ∧ p &&& b.2 = b.1)) := by
  induction h with
  | done => exact List.Pairwise.nil
  | step sp k l hlt hk hfit _ hB ih =>
    refine List.Pairwise.cons ?_ ih
    intro b hb p ⟨h1, h2⟩
    obtain ⟨k2, hk2, hm2, _, _, _⟩ := Blocks_shape hB b hb
    have hlt1 : (2 ^ 16 - 2 ^ k) % 2 ^ 16 < 65536 := Nat.mod_lt _ (by decide)
    have hlt2 : b.2 < 65536 := by rw [hm2]; exact Nat.mod_lt _ (by decide)
    have hp : p % 65536 < 65536 := Nat.mod_lt _ (by decide)
    simp only at h1
    rw [and_low p _ hlt1] at h1
    rw [and_low p _ hlt2] at h2
    have c1 := (match_iff _ sp k hp hk hfit.2).1 h1
    have c2 := (Blocks_cover hB _ hp).1 ⟨b, hb, h2⟩
    omega


theorem dvd_lt_add {c x y : Nat} (hx : c ∣ x) (hy : c ∣ y) (h : x < y) : x + c ≤ y := by
  obtain ⟨u, rfl⟩ := hx
  obtain ⟨v, rfl⟩ := hy
  have huv : u < v := Nat.lt_of_mul_lt_mul_left h
  calc c * u + c = c * (u + 1) := by rw [Nat.mul_succ]
    _ ≤ c * v := Nat.mul_le_mul_left c huv

theorem pow_lt_pow_imp {k m : Nat} (h : 2 ^ k < 2 ^ m) : k < m := by
  by_contra hc
  have := Nat.pow_le_pow_right (show 0 < 2 by decide) (show m ≤ k by omega)
  omega

theorem Blocks_noStraddle {ep sp : Nat} {l : List (Nat × Nat)} (h : Blocks ep sp l) (s : Nat) :
    (∀ a m, 2 ^ m ∣ a → s ≤ a → a + 2 ^ m ≤ ep → ¬ (a < sp ∧ sp < a + 2 ^ m)) →
    ∀ bm ∈ l, ∀ a m, 2 ^ m ∣ a → s ≤ a → a + 2 ^ m ≤ ep → a ≤ bm.1 → bm.1 < a + 2 ^ m →
      a = bm.1 := by
  induction h with
  | done => intro _ bm hbm; simp at hbm
  | step sp k l hlt hk hfit hmax hB ih =>
    intro hinv bm hbm a m hdvd hsa hae h1 h2
    rcases List.mem_cons.1 hbm with rfl | hmem
    · have := hinv a m hdvd hsa hae
      simp only at h1 h2
      show a = sp
      omega
    · refine ih ?_ bm hmem a m hdvd hsa hae h1 h2
      intro a m hdvd hsa hae ⟨c1, c2⟩
      have hk0 := Nat.two_pow_pos k
      have hm0 := Nat.two_pow_pos m
      rcases Nat.lt_trichotomy a sp with hlt1 | heq | hgt
      · exact hinv a m hdvd hsa hae ⟨hlt1, by omega⟩
      · subst heq
        have hkm : k < m := pow_lt_pow_imp (by omega)
        have hpow : 2 ^ (k + 1) ∣ 2 ^ m := Nat.pow_dvd_pow 2 hkm
        have hle : 2 ^ (k + 1) ≤ 2 ^ m := Nat.pow_le_pow_right (by decide) hkm
        exact hmax ⟨by omega, Nat.dvd_trans hpow hdvd⟩
      · by_cases hmk : k ≤ m
        · have hd : 2 ^ k ∣ a := Nat.dvd_trans (Nat.pow_dvd_pow 2 hmk) hdvd
          have := dvd_lt_add hfit.2 hd hgt
          omega
        · have hd1 : 2 ^ m ∣ sp + 2 ^ k :=
            Nat.dvd_add (Nat.dvd_trans (Nat.pow_dvd_pow 2 (by omega)) hfit.2)
              (Nat.pow_dvd_pow 2 (by omega))
          have := dvd_lt_add hdvd hd1 c1
          omega

theorem Blocks_bases_nodup {ep sp : Nat} {l : List (Nat × Nat)} (h : Blocks ep sp l) :
    (l.map Prod.fst).Nodup := by
  induction h with
  | done => simp
  | step sp k l hlt hk hfit hmax hB ih =>
    rw [List.map_cons, List.nodup_cons]
    refine ⟨?_, ih⟩
    intro hmem
    obtain ⟨bm, hbm, hfst⟩ := List.mem_map.1 hmem
    obtain ⟨k2, _, _, _, h4, _⟩ := Blocks_shape hB bm hbm
    have := Nat.two_pow_pos k
    simp only at hfst
    omega

theorem compl16_eq (k : Nat) (hk : k ≤ 16) :
    (2 ^ k - 1) ^^^ 0xFFFF = (2 ^ 16 - 2 ^ k) % 2 ^ 16 := by
  interval_cases k <;> rfl

theorem Blocks_minimal {s e : Nat} {l : List (Nat × Nat)} (h : Blocks (e + 1) s l)
    (he : e ≤ 65535) (L : List (Nat × Nat))
    (hshape : ∀ bm ∈ L, ∃ k, k ≤ 16 ∧ bm.2 = (2 ^ k - 1) ^^^ 0xFFFF ∧ 2 ^ k ∣ bm.1)
    (hcover : ∀ p, p ≤ 65535 → ((s ≤ p ∧ p ≤ e) ↔ ∃ bm ∈ L, p &&& bm.2 = bm.1)) :
    l.length ≤ L.length := by
  have hsub : l.map Prod.fst ⊆ L.map Prod.fst := by
    intro x hx
    obtain ⟨g, hg, rfl⟩ := List.mem_map.1 hx
    obtain ⟨kg, _, _, _, hg4, hg5⟩ := Blocks_shape h g hg
    have hg0 := Nat.two_pow_pos kg
    obtain ⟨bm, hbm, hmatch⟩ := (hcover g.1 (by omega)).1 ⟨hg4, by omega⟩
    obtain ⟨k, hk, hmask, hdvd⟩ := hshape bm hbm
    have hk0 := Nat.two_pow_pos k
    rw [hmask, compl16_eq k hk] at hmatch
    have hin := (match_iff g.1 bm.1 k (by omega) hk hdvd).1 hmatch
    have hb16 : bm.1 + 2 ^ k ≤ 65536 :=
      dvd_lt_add (y := 65536) hdvd (by
        have := Nat.pow_dvd_pow 2 hk
        simpa using this) (by omega)
    have hlo : s ≤ bm.1 := by
      have hm : bm.1 &&& bm.2 = bm.1 := by
        rw [hmask, compl16_eq k hk]
        exact (match_iff bm.1 bm.1 k (by omega) hk hdvd).2 ⟨le_refl _, by omega⟩
      exact ((hcover bm.1 (by omega)).2 ⟨bm, hbm, hm⟩).1
    have hhi : bm.1 + 2 ^ k ≤ e + 1 := by
      have hm : (bm.1 + 2 ^ k - 1) &&& bm.2 = bm.1 := by
        rw [hmask, compl16_eq k hk]
        exact (match_iff _ bm.1 k (by omega) hk hdvd).2 ⟨by omega, by omega⟩
      have := ((hcover (bm.1 + 2 ^ k - 1) (by omega)).2 ⟨bm, hbm, hm⟩).2
      omega
    have heq := Blocks_noStraddle h s (fun a m _ hsa _ hc => by omega) g hg bm.1 k hdvd hlo hhi
      hin.1 hin.2
    exact List.mem_map.2 ⟨bm, hbm, heq⟩
  have := ((Blocks_bases_nodup h).subperm hsub).length_le
  simpa using this


theorem mask_compl (k : Nat) (hk : k ≤ 16) :
    ((2 ^ 16 - 2 ^ k) % 2 ^ 16) ^^^ 0xFFFF = 2 ^ k - 1 := by
  interval_cases k <;> rfl

theorem sampleCover_shape :
    ∀ bm ∈ sampleCover, ∃ k, k ≤ 16 ∧ bm.2 = (2 ^ k - 1) ^^^ 0xFFFF ∧ 2 ^ k ∣ bm.1 := by
  intro bm hbm
  simp only [sampleCover, List.mem_cons, List.mem_singleton, List.not_mem_nil, or_false] at hbm
  rcases hbm with rfl | rfl | rfl | rfl | rfl
  · exact ⟨1, by decide, by decide, by decide⟩
  · exact ⟨2, by decide, by decide, by decide⟩
  · exact ⟨0, by decide, by decide, by decide⟩
  · exact ⟨0, by decide, by decide, by decide⟩
  · exact ⟨1, by decide, by decide, by decide⟩

theorem sampleCover_exact :
    ∀ p, p ≤ 65535 → ((10 ≤ p ∧ p ≤ 19) ↔ ∃ bm ∈ sampleCover, p &&& bm.2 = bm.1) := by
  intro p hp
  have hp2 : p < 65536 := by omega
  have h1 : p &&& 0xFFFE = 10 ↔ 10 ≤ p ∧ p < 10 + 2 ^ 1 :=
    match_iff p 10 1 hp2 (by decide) (by decide)
  have h2 : p &&& 0xFFFC = 12 ↔ 12 ≤ p ∧ p < 12 + 2 ^ 2 :=
    match_iff p 12 2 hp2 (by decide) (by decide)
  have h3 : p &&& 0xFFFF = 16 ↔ 16 ≤ p ∧ p < 16 + 2 ^ 0 :=
    match_iff p 16 0 hp2 (by decide) (by decide)
  have h4 : p &&& 0xFFFF = 17 ↔ 17 ≤ p ∧ p < 17 + 2 ^ 0 :=
    match_iff p 17 0 hp2 (by decide) (by decide)
  have h5 : p &&& 0xFFFE = 18 ↔ 18 ≤ p ∧ p < 18 + 2 ^ 1 :=
    match_iff p 18 1 hp2 (by decide) (by decide)
  simp only [sampleCover, List.mem_cons, List.mem_singleton, List.not_mem_nil, or_false,
    exists_eq_or_imp, exists_eq_left, h1, h2, h3, h4, h5]
  omega

/-! ## Properties of PortRangeToMasks -/

/-- C1: for `s ≤ e ≤ 65535` the decomposition returns a list of blocks, and a port
`p ≤ 65535` lies in `[s, e]` if and only if some block `(base, mask)` of the list
has `p AND mask = base`: the union of the blocks is exactly the interval. -/
theorem PortRangeToMasks_union_exact (s e : Nat) (hse : s ≤ e) (he : e ≤ 65535) :
    ∃ l, PortRangeToMasks s e = some l ∧
      ∀ p, p ≤ 65535 → ((s ≤ p ∧ p ≤ e) ↔ ∃ bm ∈ l, p &&& bm.2 = bm.1) := by
  obtain ⟨l, hl, hB⟩ := PortRangeToMasks_spec s e hse he
  refine ⟨l, hl, fun p hp => ?_⟩
  rw [Blocks_cover hB p (by omega)]
  omega

/-- Instance of C1 at the range 10..19. -/
theorem PortRangeToMasks_union_exact_witness :
    10 ≤ 19 ∧ 19 ≤ 65535 ∧ ∃ l, PortRangeToMasks 10 19 = some l ∧
      ∀ p, p ≤ 65535 → ((10 ≤ p ∧ p ≤ 19) ↔ ∃ bm ∈ l, p &&& bm.2 = bm.1) :=
  ⟨by decide, by decide, PortRangeToMasks_union_exact 10 19 (by decide) (by decide)⟩

/-- C5: the decomposition is minimal.  For `s ≤ e ≤ 65535`, every list `L` of pairs
whose masks are 16-bit complements of `2 ^ k - 1` with `k ≤ 16`, whose bases are
multiples of that `2 ^ k`, and whose matched ports are exactly `[s, e]`, has at
least as many pairs as the list returned by `PortRangeToMasks s e`. -/
theorem PortRangeToMasks_minimal (s e : Nat) (hse : s ≤ e) (he : e ≤ 65535)
    (L : List (Nat × Nat))
    (hshape : ∀ bm ∈ L, ∃ k, k ≤ 16 ∧ bm.2 = (2 ^ k - 1) ^^^ 0xFFFF ∧ 2 ^ k ∣ bm.1)
    (hcover : ∀ p, p ≤ 65535 → ((s ≤ p ∧ p ≤ e) ↔ ∃ bm ∈ L, p &&& bm.2 = bm.1)) :
    ∃ l, PortRangeToMasks s e = some l ∧ l.length ≤ L.length := by
  obtain ⟨l, hl, hB⟩ := PortRangeToMasks_spec s e hse he
  exact ⟨l, hl, Blocks_minimal hB he L hshape hcover⟩

/-- Instance of C5: the five-block cover `sampleCover` of 10..19 is at least as
long as the decomposition of 10..19. -/
theorem PortRangeToMasks_minimal_witness :
    10 ≤ 19 ∧ 19 ≤ 65535 ∧
    (∀ bm ∈ sampleCover, ∃ k, k ≤ 16 ∧ bm.2 = (2 ^ k - 1) ^^^ 0xFFFF ∧ 2 ^ k ∣ bm.1) ∧
    (∀ p, p ≤ 65535 → ((10 ≤ p ∧ p ≤ 19) ↔ ∃ bm ∈ sampleCover, p &&& bm.2 = bm.1)) ∧
    ∃ l, PortRangeToMasks 10 19 = some l ∧ l.length ≤ sampleCover.length :=
  ⟨by decide, by decide, sampleCover_shape, sampleCover_exact,
    PortRangeToMasks_minimal 10 19 (by decide) (by decide) sampleCover sampleCover_shape
      sampleCover_exact⟩

/-- C6: for `s ≤ e ≤ 65535` the blocks of the decomposition are pairwise disjoint:
at two distinct positions `i ≠ j` of the returned list no `p` (in particular no
port) satisfies both `p AND mask_i = base_i` and `p AND mask_j = base_j`. -/
theorem PortRangeToMasks_pairwise_disjoint (s e : Nat) (hse : s ≤ e) (he : e ≤ 65535) :
    ∃ l, PortRangeToMasks s e = some l ∧
      ∀ (i j : Nat) (hi : i < l.length) (hj : j < l.length), i ≠ j →
        ∀ p, ¬ (p &&& l[i].2 = l[i].1 ∧ p &&& l[j].2 = l[j].1) := by
  obtain ⟨l, hl, hB⟩ := PortRangeToMasks_spec s e hse he
  refine ⟨l, hl, ?_⟩
  have hpw := List.pairwise_iff_getElem.1 (Blocks_pairwise hB)
  intro i j hi hj hij p ⟨h1, h2⟩
  rcases Nat.lt_or_gt_of_ne hij with h | h
  · exact hpw i j hi hj h p ⟨h1, h2⟩
  · exact hpw j i hj hi h p ⟨h2, h1⟩

/-- Instance of C6 at the range 10..19. -/
theorem PortRangeToMasks_pairwise_disjoint_witness :
    10 ≤ 19 ∧ 19 ≤ 65535 ∧ ∃ l, PortRangeToMasks 10 19 = some l ∧
      ∀ (i j : Nat) (hi : i < l.length) (hj : j < l.length), i ≠ j →
        ∀ p, ¬ (p &&& l[i].2 = l[i].1 ∧ p &&& l[j].2 = l[j].1) :=
  ⟨by decide, by decide, PortRangeToMasks_pairwise_disjoint 10 19 (by decide) (by decide)⟩

/-- C7: for `s ≤ e ≤ 65535` every block `(base, mask)` of the decomposition has a
`k ≤ 16` with `mask = (2 ^ 16 - 2 ^ k) mod 2 ^ 16` and `base` a multiple of
`2 ^ k`; equivalently `base AND NOT mask = 0` on 16 bits. -/
theorem PortRangeToMasks_mask_shape (s e : Nat) (hse : s ≤ e) (he : e ≤ 65535) :
    ∃ l, PortRangeToMasks s e = some l ∧
      ∀ bm ∈ l, ∃ k, k ≤ 16 ∧ bm.2 = (2 ^ 16 - 2 ^ k) % 2 ^ 16 ∧ 2 ^ k ∣ bm.1 ∧
        bm.1 &&& (bm.2 ^^^ 0xFFFF) = 0 := by
  obtain ⟨l, hl, hB⟩ := PortRangeToMasks_spec s e hse he
  refine ⟨l, hl, fun bm hbm => ?_⟩
  obtain ⟨k, hk, hm, hd, _, _⟩ := Blocks_shape hB bm hbm
  refine ⟨k, hk, hm, hd, ?_⟩
  rw [hm, mask_compl k hk, Nat.and_pow_two_sub_one_eq_mod]
  exact Nat.mod_eq_zero_of_dvd hd

/-- Instance of C7 at the range 10..19. -/
theorem PortRangeToMasks_mask_shape_witness :
    10 ≤ 19 ∧ 19 ≤ 65535 ∧ ∃ l, PortRangeToMasks 10 19 = some l ∧
      ∀ bm ∈ l, ∃ k, k ≤ 16 ∧ bm.2 = (2 ^ 16 - 2 ^ k) % 2 ^ 16 ∧ 2 ^ k ∣ bm.1 ∧
        bm.1 &&& (bm.2 ^^^ 0xFFFF) = 0 :=
  ⟨by decide, by decide, PortRangeToMasks_mask_shape 10 19 (by decide) (by decide)⟩


/-! ## Policy assembly -/

theorem clausesOf_cons_blank (seg : String) (rest : List String)
    (h : (TrimSpace seg).length = 0) : clausesOf (seg :: rest) = clausesOf rest := by
  simp [clausesOf, List.filter_cons, h]

theorem clausesOf_cons_clause (seg : String) (rest : List String)
    (h : ¬ (TrimSpace seg).length = 0) :
    clausesOf (seg :: rest) = TrimSpace seg :: clausesOf rest := by
  simp [clausesOf, List.filter_cons, h]

theorem parsedRecords_cons_ok (parse : String → Except String secrules.SecurityRule)
    (seg : String) (rest : List String) (r : SecurityRule)
    (h : NewSecurityRule parse seg = .ok r) :
    parsedRecords parse (seg :: rest) = r :: parsedRecords parse rest := by
  unfold parsedRecords
  rw [List.filterMap_cons, h]
  rfl

theorem ofDirection_cons_same (r : SecurityRule) (recs : List SecurityRule) :
    ofDirection r.Direction (r :: recs) = r :: ofDirection r.Direction recs := by
  simp [ofDirection, List.filter_cons]

theorem ofDirection_cons_other (d : TSecurityRuleDirection) (r : SecurityRule)
    (recs : List SecurityRule) (h : r.Direction ≠ d) :
    ofDirection d (r :: recs) = ofDirection d recs := by
  simp [ofDirection, List.filter_cons, h]

theorem collectRules_eq (parse : String → Except String secrules.SecurityRule) :
    ∀ (segs : List String) (inRules outRules : List SecurityRule),
      collectRules parse segs inRules outRules =
        match firstError parse (clausesOf segs) with
        | some err => .error err
        | none => .ok (inRules ++ ofDirection DIR_IN (parsedRecords parse (clausesOf segs)),
                       outRules ++ ofDirection DIR_OUT (parsedRecords parse (clausesOf segs))) := by
  intro segs
  induction segs with
  | nil => intro i o; simp [collectRules, clausesOf, firstError, parsedRecords, ofDirection]
  | cons seg rest ih =>
    intro i o
    unfold collectRules
    by_cases hb : (TrimSpace seg).length = 0
    · simp only [hb, if_true]
      rw [clausesOf_cons_blank seg rest hb]
      exact ih i o
    · simp only [hb, if_false]
      rw [clausesOf_cons_clause seg rest hb]
      cases hp : NewSecurityRule parse (TrimSpace seg) with
      | error err => simp [firstError, hp]
      | ok r =>
        rw [parsedRecords_cons_ok parse _ _ r hp]
        simp only [firstError, hp]
        cases hd : r.Direction with
        | DIR_IN =>
          simp only [ih]
          cases firstError parse (clausesOf rest) with
          | some err => rfl
          | none =>
            have h1 := ofDirection_cons_same r (parsedRecords parse (clausesOf rest))
            have h2 := ofDirection_cons_other DIR_OUT r (parsedRecords parse (clausesOf rest))
              (by rw [hd]; decide)
            rw [hd] at h1
            simp [h1, h2]
        | DIR_OUT =>
          simp only [ih]
          cases firstError parse (clausesOf rest) with
          | some err => rfl
          | none =>
            have h1 := ofDirection_cons_same r (parsedRecords parse (clausesOf rest))
            have h2 := ofDirection_cons_other DIR_IN r (parsedRecords parse (clausesOf rest))
              (by rw [hd]; decide)
            rw [hd] at h1
            simp [h1, h2]

theorem firstError_some_iff (parse : String → Except String secrules.SecurityRule)
    (err : String) : ∀ cl : List String,
      firstError parse cl = some err ↔
        ∃ pre seg post, cl = pre ++ seg :: post ∧
          (∀ x ∈ pre, ∃ r, NewSecurityRule parse x = .ok r) ∧
          NewSecurityRule parse seg = .error err := by
  intro cl
  induction cl with
  | nil => simp [firstError]
  | cons c rest ih =>
    unfold firstError
    cases hp : NewSecurityRule parse c with
    | error e =>
      simp only [Option.some.injEq]
      constructor
      · rintro rfl
        exact ⟨[], c, rest, rfl, by simp, hp⟩
      · rintro ⟨pre, seg, post, heq, hpre, hseg⟩
        cases pre with
        | nil =>
          simp only [List.nil_append, List.cons.injEq] at heq
          rw [← heq.1, hp] at hseg
          exact Except.error.inj hseg
        | cons x pre2 =>
          simp only [List.cons_append, List.cons.injEq] at heq
          obtain ⟨r, hr⟩ := hpre x (by simp)
          rw [← heq.1, hp] at hr
          cases hr
    | ok r =>
      simp only
      rw [ih]
      constructor
      · rintro ⟨pre, seg, post, heq, hpre, hseg⟩
        refine ⟨c :: pre, seg, post, by simp [heq], ?_, hseg⟩
        intro x hx
        rcases List.mem_cons.1 hx with rfl | hx
        · exact ⟨r, hp⟩
        · exact hpre x hx
      · rintro ⟨pre, seg, post, heq, hpre, hseg⟩
        cases pre with
        | nil =>
          simp only [List.nil_append, List.cons.injEq] at heq
          rw [← heq.1, hp] at hseg
          cases hseg
        | cons x pre2 =>
          simp only [List.cons_append, List.cons.injEq] at heq
          exact ⟨pre2, seg, post, heq.2, fun y hy => hpre y (by simp [hy]), hseg⟩

theorem firstError_none_iff (parse : String → Except String secrules.SecurityRule) :
    ∀ cl : List String,
      firstError parse cl = none ↔ ∀ seg ∈ cl, ∃ r, NewSecurityRule parse seg = .ok r := by
  intro cl
  induction cl with
  | nil => simp [firstError]
  | cons c rest ih =>
    unfold firstError
    cases hp : NewSecurityRule parse c with
    | error e =>
      simp only [List.mem_cons, forall_eq_or_imp, hp]
      simp
    | ok r =>
      simp only [List.mem_cons, forall_eq_or_imp, hp, ih]
      simp

theorem parsedRecords_of_forall₂ (parse : String → Except String secrules.SecurityRule) :
    ∀ (cl : List String) (recs : List SecurityRule),
      List.Forall₂ (fun seg sr => NewSecurityRule parse seg = .ok sr) cl recs →
        firstError parse cl = none ∧ parsedRecords parse cl = recs := by
  intro cl recs h
  induction h with
  | nil => exact ⟨rfl, rfl⟩
  | cons hhead _ ih =>
    rw [parsedRecords_cons_ok parse _ _ _ hhead]
    unfold firstError
    rw [hhead]
    exact ⟨ih.1, by rw [ih.2]⟩

theorem NewSecurityRules_eq (parse : String → Except String secrules.SecurityRule)
    (isWild : secrules.SecurityRule → Bool) (s : String) :
    NewSecurityRules parse isWild s =
      match firstError parse (clauses s) with
      | some err => .error err
      | none => .ok {
          inRules := completeRules parse isWild "in:deny any"
            (ofDirection DIR_IN (parsedRecords parse (clauses s)))
          outRules := completeRules parse isWild "out:allow any"
            (ofDirection DIR_OUT (parsedRecords parse (clauses s)))
          inOvsMatches := none
          outOvsMatches := none
          outAllowAny := false } := by
  unfold NewSecurityRules clauses
  rw [collectRules_eq]
  cases firstError parse (clausesOf (Split s ';')) with
  | some err => rfl
  | none => simp

theorem completeRules_needs (parse : String → Except String secrules.SecurityRule)
    (isWild : secrules.SecurityRule → Bool) (clause : String) (rules : List SecurityRule)
    (h : needsTerminal isWild rules) :
    completeRules parse isWild clause rules =
      rules.map some ++ [(NewSecurityRule parse clause).toOption] := by
  unfold completeRules
  rcases h with rfl | ⟨last, hl, hw⟩
  · simp
  · simp [hl, hw]

theorem completeRules_not_needs (parse : String → Except String secrules.SecurityRule)
    (isWild : secrules.SecurityRule → Bool) (clause : String) (rules : List SecurityRule)
    (h : ¬ needsTerminal isWild rules) :
    completeRules parse isWild clause rules = rules.map some := by
  unfold completeRules
  cases hl : rules.getLast? with
  | none =>
    exact absurd (Or.inl (List.getLast?_eq_none_iff.1 hl)) h
  | some last =>
    have hw : last.IsWildMatch isWild = true := by
      by_contra hc
      exact h (Or.inr ⟨last, hl, by simpa using hc⟩)
    simp [hw]

theorem completeRules_last (parse : String → Except String secrules.SecurityRule)
    (isWild : secrules.SecurityRule → Bool) (clause : String) (rules : List SecurityRule)
    (h : ∃ r, parse (TrimSpace clause) = .ok r ∧ isWild r = true) :
    completeRules parse isWild clause rules ≠ [] ∧
      ∃ sr, (completeRules parse isWild clause rules).getLast? = some (some sr) ∧
        sr.IsWildMatch isWild = true := by
  obtain ⟨r, hr, hw⟩ := h
  have hsyn : (NewSecurityRule parse clause).toOption = some { r := r, ovsMatches := none } := by
    unfold NewSecurityRule
    simp only [hr]
    rfl
  by_cases hn : needsTerminal isWild rules
  · rw [completeRules_needs parse isWild clause rules hn, hsyn]
    refine ⟨by simp, { r := r, ovsMatches := none }, List.getLast?_concat _, hw⟩
  · rw [completeRules_not_needs parse isWild clause rules hn]
    cases hl : rules.getLast? with
    | none => exact absurd (Or.inl (List.getLast?_eq_none_iff.1 hl)) hn
    | some last =>
      have hne : rules ≠ [] := by
        intro h0; rw [h0] at hl; simp at hl
      refine ⟨by simpa using hne, last, by rw [List.getLast?_map, hl]; rfl, ?_⟩
      by_contra hc
      exact hn (Or.inr ⟨last, hl, by simpa using hc⟩)

theorem TrimSpace_in_deny_any : TrimSpace "in:deny any" = "in:deny any" := by decide

theorem TrimSpace_out_allow_any : TrimSpace "out:allow any" = "out:allow any" := by decide

theorem TrimSpace_in_allow_any : TrimSpace "in:allow any" = "in:allow any" := by decide

theorem clauses_empty : clauses "" = [] := by decide

theorem clauses_in_allow_any : clauses "in:allow any" = ["in:allow any"] := by decide

/-- C2: when the clause parser turns the literal clauses `in:deny any` and
`out:allow any` into wild-match records, every rule set returned by
`NewSecurityRules` has a non-empty inbound and a non-empty outbound sequence, and
the last record of each is a (non-nil) record that satisfies `IsWildMatch`. -/
theorem NewSecurityRules_terminal_wild
    (parse : String → Except String secrules.SecurityRule)
    (isWild : secrules.SecurityRule → Bool) (s : String) (rs : SecurityRules)
    (hin : ∃ r, parse "in:deny any" = .ok r ∧ isWild r = true)
    (hout : ∃ r, parse "out:allow any" = .ok r ∧ isWild r = true)
    (hok : NewSecurityRules parse isWild s = .ok rs) :
    (rs.inRules ≠ [] ∧
      ∃ sr, rs.inRules.getLast? = some (some sr) ∧ sr.IsWildMatch isWild = true) ∧
    (rs.outRules ≠ [] ∧
      ∃ sr, rs.outRules.getLast? = some (some sr) ∧ sr.IsWildMatch isWild = true) := by
  rw [NewSecurityRules_eq] at hok
  cases hfe : firstError parse (clauses s) with
  | some err => rw [hfe] at hok; cases hok
  | none =>
    rw [hfe] at hok
    have hrs := Except.ok.inj hok
    subst hrs
    exact ⟨completeRules_last parse isWild _ _ (by rw [TrimSpace_in_deny_any]; exact hin),
      completeRules_last parse isWild _ _ (by rw [TrimSpace_out_allow_any]; exact hout)⟩

theorem sampleRules_eq :
    NewSecurityRules sampleParse secrules.SecurityRule.IsWildMatch
      "in:allow tcp,port_range=10-19" = .ok sampleRules := by
  rfl

/-- Instance of C2: the text `in:allow tcp,port_range=10-19` with the sample
parser; both sequences of the result end in a wild-match record. -/
theorem NewSecurityRules_terminal_wild_witness :
    (∃ r, sampleParse "in:deny any" = .ok r ∧ secrules.SecurityRule.IsWildMatch r = true) ∧
    (∃ r, sampleParse "out:allow any" = .ok r ∧ secrules.SecurityRule.IsWildMatch r = true) ∧
    NewSecurityRules sampleParse secrules.SecurityRule.IsWildMatch
      "in:allow tcp,port_range=10-19" = .ok sampleRules ∧
    (sampleRules.inRules ≠ [] ∧
      ∃ sr, sampleRules.inRules.getLast? = some (some sr) ∧
        sr.IsWildMatch secrules.SecurityRule.IsWildMatch = true) ∧
    (sampleRules.outRules ≠ [] ∧
      ∃ sr, sampleRules.outRules.getLast? = some (some sr) ∧
        sr.IsWildMatch secrules.SecurityRule.IsWildMatch = true) :=
  ⟨⟨_, rfl, rfl⟩, ⟨_, rfl, rfl⟩, sampleRules_eq,
    NewSecurityRules_terminal_wild sampleParse secrules.SecurityRule.IsWildMatch
      "in:allow tcp,port_range=10-19" sampleRules ⟨_, rfl, rfl⟩ ⟨_, rfl, rfl⟩ sampleRules_eq⟩

/-- C3: for every policy text whose clauses (the trimmed non-blank segments) all
parse, with `recs` the parsed records in source order, `NewSecurityRules` returns
per direction exactly the records of that direction in source order, followed by
one synthesized record (the parse of `in:deny any` for inbound, of
`out:allow any` for outbound) exactly when that list is empty or its last record
is not a wild match, and by nothing otherwise.  In particular the text `""` gives
the two synthesized records alone, and `in:allow any`, when it parses to an inbound
wild-match record, gives that record alone inbound and the synthesized record
outbound. -/
theorem NewSecurityRules_records (parse : String → Except String secrules.SecurityRule)
    (isWild : secrules.SecurityRule → Bool) :
    (∀ (s : String) (recs : List SecurityRule),
      List.Forall₂ (fun seg sr => NewSecurityRule parse seg = .ok sr) (clauses s) recs →
      ∃ rs, NewSecurityRules parse isWild s = .ok rs ∧
        (needsTerminal isWild (ofDirection DIR_IN recs) →
          rs.inRules = (ofDirection DIR_IN recs).map some ++
            [(NewSecurityRule parse "in:deny any").toOption]) ∧
        (¬ needsTerminal isWild (ofDirection DIR_IN recs) →
          rs.inRules = (ofDirection DIR_IN recs).map some) ∧
        (needsTerminal isWild (ofDirection DIR_OUT recs) →
          rs.outRules = (ofDirection DIR_OUT recs).map some ++
            [(NewSecurityRule parse "out:allow any").toOption]) ∧
        (¬ needsTerminal isWild (ofDirection DIR_OUT recs) →
          rs.outRules = (ofDirection DIR_OUT recs).map some)) ∧
    NewSecurityRules parse isWild "" = .ok {
      inRules := [(NewSecurityRule parse "in:deny any").toOption]
      outRules := [(NewSecurityRule parse "out:allow any").toOption]
      inOvsMatches := none, outOvsMatches := none, outAllowAny := false } ∧
    (∀ r, parse "in:allow any" = .ok r → r.Direction = DIR_IN → isWild r = true →
      NewSecurityRules parse isWild "in:allow any" = .ok {
        inRules := [some { r := r, ovsMatches := none }]
        outRules := [(NewSecurityRule parse "out:allow any").toOption]
        inOvsMatches := none, outOvsMatches := none, outAllowAny := false }) := by
  refine ⟨?_, ?_, ?_⟩
  · intro s recs h
    obtain ⟨hfe, hrec⟩ := parsedRecords_of_forall₂ parse _ _ h
    rw [NewSecurityRules_eq, hfe, hrec]
    refine ⟨_, rfl, ?_, ?_, ?_, ?_⟩
    · exact completeRules_needs parse isWild _ _
    · exact completeRules_not_needs parse isWild _ _
    · exact completeRules_needs parse isWild _ _
    · exact completeRules_not_needs parse isWild _ _
  · rw [NewSecurityRules_eq, clauses_empty]
    rfl
  · intro r hr hd hw
    have hp : NewSecurityRule parse "in:allow any" = .ok { r := r, ovsMatches := none } := by
      unfold NewSecurityRule
      simp only [TrimSpace_in_allow_any, hr]
    rw [NewSecurityRules_eq, clauses_in_allow_any]
    have hfe : firstError parse ["in:allow any"] = none := by
      simp [firstError, hp]
    have hrec : parsedRecords parse ["in:allow any"] = [{ r := r, ovsMatches := none }] := by
      rw [parsedRecords_cons_ok parse _ _ _ hp]; rfl
    rw [hfe, hrec]
    have hdin : ofDirection DIR_IN [({ r := r, ovsMatches := none } : SecurityRule)] =
        [{ r := r, ovsMatches := none }] := by
      simp [ofDirection, SecurityRule.Direction, hd]
    have hdout : ofDirection DIR_OUT [({ r := r, ovsMatches := none } : SecurityRule)] = [] := by
      simp [ofDirection, SecurityRule.Direction, hd]
    simp only [hdin, hdout]
    rw [completeRules_not_needs parse isWild _ _ (by
      rintro (h0 | ⟨last, hl, hnw⟩)
      · cases h0
      · simp only [List.getLast?_singleton, Option.some.injEq] at hl
        subst hl
        simp [SecurityRule.IsWildMatch, hw] at hnw)]
    rw [completeRules_needs parse isWild _ _ (Or.inl rfl)]
    rfl

/-- Instance of C3 with the sample parser: the empty text, the text
`in:allow any`, and the text `in:allow tcp,port_range=10-19`, whose single
inbound record is followed by the synthesized inbound deny-all. -/
theorem NewSecurityRules_records_witness :
    NewSecurityRules sampleParse secrules.SecurityRule.IsWildMatch "" = .ok {
      inRules := [some { r := sampleRule DIR_IN SecurityRuleDeny "any", ovsMatches := none }]
      outRules := [some { r := sampleRule DIR_OUT SecurityRuleAllow "any", ovsMatches := none }]
      inOvsMatches := none, outOvsMatches := none, outAllowAny := false } ∧
    NewSecurityRules sampleParse secrules.SecurityRule.IsWildMatch "in:allow any" = .ok {
      inRules := [some { r := sampleRule DIR_IN SecurityRuleAllow "any", ovsMatches := none }]
      outRules := [some { r := sampleRule DIR_OUT SecurityRuleAllow "any", ovsMatches := none }]
      inOvsMatches := none, outOvsMatches := none, outAllowAny := false } ∧
    List.Forall₂ (fun seg sr => NewSecurityRule sampleParse seg = .ok sr)
      (clauses "in:allow tcp,port_range=10-19")
      [{ r := { sampleRule DIR_IN SecurityRuleAllow "tcp" with PortStart := 10, PortEnd := 19 },
         ovsMatches := none }] ∧
    ∃ rs, NewSecurityRules sampleParse secrules.SecurityRule.IsWildMatch
        "in:allow tcp,port_range=10-19" = .ok rs ∧ rs = sampleRules :=
  ⟨(NewSecurityRules_records sampleParse secrules.SecurityRule.IsWildMatch).2.1,
   (NewSecurityRules_records sampleParse secrules.SecurityRule.IsWildMatch).2.2
      (sampleRule DIR_IN SecurityRuleAllow "any") rfl rfl rfl,
   List.Forall₂.cons rfl List.Forall₂.nil,
   by
    obtain ⟨rs, hrs, h1, _, h3, _⟩ :=
      (NewSecurityRules_records sampleParse secrules.SecurityRule.IsWildMatch).1
        "in:allow tcp,port_range=10-19"
        [{ r := { sampleRule DIR_IN SecurityRuleAllow "tcp" with PortStart := 10, PortEnd := 19 },
           ovsMatches := none }]
        (List.Forall₂.cons rfl List.Forall₂.nil)
    refine ⟨rs, hrs, ?_⟩
    rw [sampleRules_eq] at hrs
    exact (Except.ok.inj hrs).symm⟩

/-- C4: `NewSecurityRules` returns an error exactly when some clause (a segment
that is non-empty after trimming) is rejected by the clause parser, and the error
is that of the first rejected clause: the clauses before it all parse.  The result
is then the error alone, without a rule set.  A text whose segments are each blank
or accepted always builds. -/
theorem NewSecurityRules_error_iff (parse : String → Except String secrules.SecurityRule)
    (isWild : secrules.SecurityRule → Bool) (s : String) :
    (∀ err, NewSecurityRules parse isWild s = .error err ↔
      ∃ pre seg post, clauses s = pre ++ seg :: post ∧
        (∀ x ∈ pre, ∃ r, NewSecurityRule parse x = .ok r) ∧
        NewSecurityRule parse seg = .error err) ∧
    ((∃ err, NewSecurityRules parse isWild s = .error err) ↔
      ∃ seg ∈ clauses s, ∃ err, NewSecurityRule parse seg = .error err) ∧
    ((∀ seg ∈ Split s ';', (TrimSpace seg).length = 0 ∨
        ∃ r, NewSecurityRule parse (TrimSpace seg) = .ok r) →
      ∃ rs, NewSecurityRules parse isWild s = .ok rs) := by
  have hmain : ∀ err, NewSecurityRules parse isWild s = .error err ↔
      firstError parse (clauses s) = some err := by
    intro err
    rw [NewSecurityRules_eq]
    cases firstError parse (clauses s) with
    | some e => simp
    | none => simp
  refine ⟨fun err => (hmain err).trans (firstError_some_iff parse err _), ?_, ?_⟩
  · constructor
    · rintro ⟨err, herr⟩
      obtain ⟨pre, seg, post, heq, _, hseg⟩ :=
        (firstError_some_iff parse err _).1 ((hmain err).1 herr)
      exact ⟨seg, by rw [heq]; simp, err, hseg⟩
    · rintro ⟨seg, hmem, err, hseg⟩
      cases hfe : firstError parse (clauses s) with
      | some e => exact ⟨e, (hmain e).2 hfe⟩
      | none =>
        obtain ⟨r, hr⟩ := (firstError_none_iff parse _).1 hfe seg hmem
        rw [hseg] at hr
        cases hr
  · intro hall
    have hfe : firstError parse (clauses s) = none := by
      rw [firstError_none_iff]
      intro seg hmem
      unfold clauses clausesOf at hmem
      rw [List.mem_filter, List.mem_map] at hmem
      obtain ⟨⟨raw, hraw, rfl⟩, hlen⟩ := hmem
      rcases hall raw hraw with h0 | hok
      · simp [h0] at hlen
      · exact hok
    rw [NewSecurityRules_eq, hfe]
    exact ⟨_, rfl⟩

/-- Instance of C4 with the sample parser: the second of three clauses is
rejected first, past a blank segment, and the build returns its error. -/
theorem NewSecurityRules_error_iff_witness :
    NewSecurityRules sampleParse secrules.SecurityRule.IsWildMatch
      "in:allow any; ;bogus;worse" = .error "invalid rule: bogus" :=
  ((NewSecurityRules_error_iff sampleParse secrules.SecurityRule.IsWildMatch
      "in:allow any; ;bogus;worse").1 "invalid rule: bogus").2
    ⟨["in:allow any"], "bogus", ["worse"], by decide,
      fun x hx => ⟨{ r := sampleRule DIR_IN SecurityRuleAllow "any", ovsMatches := none }, by
        rw [List.mem_singleton.1 hx]; rfl⟩, rfl⟩

/-! ## Match compilation -/

theorem String_length_append_pos (a b : String) (h : 0 < a.length) : 0 < (a ++ b).length := by
  rw [String.length_append]; omega

theorem directionFields_tp (d : TSecurityRuleDirection) : (directionFields d).2.2 = "tp_dst=" := by
  cases d <;> rfl

theorem addressMatch_none (M : String → Bool) (r : secrules.SecurityRule)
    (h : r.IPNet = none) :
    addressToken M r = none ∧
    addressMatch M (directionFields r.Direction).1 (directionFields r.Direction).2.1 r.IPNet =
      ("", "") := by
  unfold addressToken addressMatch
  rw [h]
  exact ⟨rfl, rfl⟩

theorem addressMatch_some (M : String → Bool) (r : secrules.SecurityRule) (n : IPNet)
    (h : r.IPNet = some n) :
    ∃ a, addressToken M r = some a ∧ 0 < a.length ∧
      addressMatch M (directionFields r.Direction).1 (directionFields r.Direction).2.1 r.IPNet =
        (if M n.netStr then "ipv6" else "ip", a) := by
  unfold addressToken addressMatch
  rw [h]
  refine ⟨_, rfl, ?_, ?_⟩
  · apply String_length_append_pos
    cases r.Direction <;> cases M n.netStr <;> decide
  · cases r.Direction <;> cases hm : M n.netStr <;> simp only [directionFields, hm] <;>
      simp <;> split <;> rfl

theorem joinMatches_nil (nwMatch protoMatch : String) (h : 0 < nwMatch.length) :
    joinMatches nwMatch protoMatch [] =
      [if 0 < protoMatch.length then nwMatch ++ "," ++ protoMatch else nwMatch] := by
  simp [joinMatches, h]

theorem OvsMatches_fresh (M : String → Bool) (r : secrules.SecurityRule) :
    (SecurityRule.OvsMatches M { r := r, ovsMatches := none }).map Prod.fst =
      computeMatches M r := by
  unfold SecurityRule.OvsMatches
  cases computeMatches M r <;> rfl

theorem protocolMatch_any (r : secrules.SecurityRule) (tpField nwProto nwMatch : String)
    (hproto : r.Protocol = PROTO_ANY) :
    protocolMatch r tpField nwProto nwMatch =
      some ("", if nwMatch.length = 0 then ["ipv6", "ip"] else []) := by
  simp [protocolMatch, hproto]

theorem protocolMatch_icmp (r : secrules.SecurityRule) (tpField nwProto nwMatch : String)
    (hproto : r.Protocol = PROTO_ICMP) :
    protocolMatch r tpField nwProto nwMatch =
      if nwProto = "ipv6" then some ("icmp6", [])
      else if nwProto = "ip" then some ("icmp", [])
      else some ("", ["icmp", "icmp6"]) := by
  have h1 : ¬ PROTO_ICMP = PROTO_ANY := by decide
  have h2 : ¬ (PROTO_ICMP = PROTO_TCP ∨ PROTO_ICMP = PROTO_UDP) := by decide
  simp [protocolMatch, hproto, h1, h2]

theorem computeMatches_any_none (M : String → Bool) (r : secrules.SecurityRule)
    (hproto : r.Protocol = PROTO_ANY) (hnet : r.IPNet = none) :
    computeMatches M r = some ["ipv6", "ip"] := by
  unfold computeMatches
  simp only [(addressMatch_none M r hnet).2, protocolMatch_any _ _ _ _ hproto]
  rfl

theorem computeMatches_any_some (M : String → Bool) (r : secrules.SecurityRule) (n : IPNet)
    (hproto : r.Protocol = PROTO_ANY) (hnet : r.IPNet = some n) :
    ∃ a, addressToken M r = some a ∧ computeMatches M r = some [a] := by
  obtain ⟨a, ha, hpos, hm⟩ := addressMatch_some M r n hnet
  refine ⟨a, ha, ?_⟩
  unfold computeMatches
  simp only [hm, protocolMatch_any _ _ _ _ hproto]
  have hne : ¬ a.length = 0 := by omega
  simp only [hne, if_false]
  rw [joinMatches_nil a "" hpos]
  rfl

/-- C9: a rule with protocol `any` and no address (in particular every wild-match
rule, whatever its direction and action) compiles to exactly the two clauses
`ipv6`, `ip` in that order; a rule with protocol `any` and an address compiles to
exactly one clause, its address token. -/
theorem OvsMatches_any (M : String → Bool) (r : secrules.SecurityRule) :
    (r.Protocol = PROTO_ANY → r.IPNet = none →
      (SecurityRule.OvsMatches M { r := r, ovsMatches := none }).map Prod.fst =
        some ["ipv6", "ip"]) ∧
    (r.IsWildMatch = true →
      (SecurityRule.OvsMatches M { r := r, ovsMatches := none }).map Prod.fst =
        some ["ipv6", "ip"]) ∧
    (r.Protocol = PROTO_ANY → ∀ n, r.IPNet = some n →
      ∃ a, addressToken M r = some a ∧
        (SecurityRule.OvsMatches M { r := r, ovsMatches := none }).map Prod.fst = some [a]) := by
  rw [OvsMatches_fresh]
  refine ⟨computeMatches_any_none M r, ?_, fun hproto n hn =>
    computeMatches_any_some M r n hproto hn⟩
  intro hw
  simp only [secrules.SecurityRule.IsWildMatch, Bool.and_eq_true, Option.isNone_iff_eq_none,
    beq_iff_eq] at hw
  exact computeMatches_any_none M r hw.1.1.1.2 hw.1.1.1.1

/-- Instance of C9: the outbound wild-match deny rule compiles to `ipv6`, `ip`, and
the inbound rule `any` with the network 10.0.0.0/24 compiles to its address token
alone. -/
theorem OvsMatches_any_witness :
    (sampleRule DIR_OUT SecurityRuleDeny "any").IsWildMatch = true ∧
    (SecurityRule.OvsMatches sampleMatchCIDR6
      { r := sampleRule DIR_OUT SecurityRuleDeny "any", ovsMatches := none }).map Prod.fst =
        some ["ipv6", "ip"] ∧
    (SecurityRule.OvsMatches sampleMatchCIDR6
      { r := { sampleRule DIR_IN SecurityRuleAllow "any" with IPNet := some sampleNet },
        ovsMatches := none }).map Prod.fst = some ["ip,nw_src=10.0.0.0/24"] :=
  ⟨rfl,
   (OvsMatches_any sampleMatchCIDR6 (sampleRule DIR_OUT SecurityRuleDeny "any")).2.1 rfl,
   by
    obtain ⟨a, ha, hres⟩ :=
      (OvsMatches_any sampleMatchCIDR6
        { sampleRule DIR_IN SecurityRuleAllow "any" with IPNet := some sampleNet }).2.2
        rfl sampleNet rfl
    rw [hres]
    have : a = "ip,nw_src=10.0.0.0/24" := (Option.some.inj ha).symm.trans (by decide)
    rw [this]⟩

theorem computeMatches_icmp_none (M : String → Bool) (r : secrules.SecurityRule)
    (hproto : r.Protocol = PROTO_ICMP) (hnet : r.IPNet = none) :
    computeMatches M r = some ["icmp", "icmp6"] := by
  unfold computeMatches
  simp only [(addressMatch_none M r hnet).2, protocolMatch_icmp _ _ _ _ hproto]
  rfl

theorem computeMatches_icmp_some (M : String → Bool) (r : secrules.SecurityRule) (n : IPNet)
    (hproto : r.Protocol = PROTO_ICMP) (hnet : r.IPNet = some n) :
    ∃ a, addressToken M r = some a ∧
      computeMatches M r = some [a ++ "," ++ (if M n.netStr then "icmp6" else "icmp")] := by
  obtain ⟨a, ha, hpos, hm⟩ := addressMatch_some M r n hnet
  refine ⟨a, ha, ?_⟩
  unfold computeMatches
  simp only [hm, protocolMatch_icmp _ _ _ _ hproto]
  cases M n.netStr with
  | true =>
    simp only [if_true]
    rw [joinMatches_nil a "icmp6" hpos]
    rfl
  | false =>
    have h1 : ¬ ("ip" = "ipv6") := by decide
    simp only [Bool.false_eq_true, if_false, h1, if_true]
    rw [joinMatches_nil a "icmp" hpos]
    rfl

theorem addressToken_ports (M : String → Bool) (r : secrules.SecurityRule) (ports : List Int)
    (ps pe : Int) :
    addressToken M { r with Ports := ports, PortStart := ps, PortEnd := pe } =
      addressToken M r := rfl

/-- C10: an icmp rule with an IPv4 address compiles to exactly one clause, the
address token followed by `,icmp`; with an IPv6 address to exactly one clause, the
address token followed by `,icmp6`; without an address to exactly the two clauses
`icmp`, `icmp6`.  The explicit ports and the port range of an icmp rule do not
change the result. -/
theorem OvsMatches_icmp (M : String → Bool) (r : secrules.SecurityRule)
    (hproto : r.Protocol = PROTO_ICMP) :
    (∀ n, r.IPNet = some n → M n.netStr = false →
      ∃ a, addressToken M r = some a ∧
        (SecurityRule.OvsMatches M { r := r, ovsMatches := none }).map Prod.fst =
          some [a ++ ",icmp"]) ∧
    (∀ n, r.IPNet = some n → M n.netStr = true →
      ∃ a, addressToken M r = some a ∧
        (SecurityRule.OvsMatches M { r := r, ovsMatches := none }).map Prod.fst =
          some [a ++ ",icmp6"]) ∧
    (r.IPNet = none →
      (SecurityRule.OvsMatches M { r := r, ovsMatches := none }).map Prod.fst =
        some ["icmp", "icmp6"]) ∧
    (∀ (ports : List Int) (ps pe : Int),
      (SecurityRule.OvsMatches M
        { r := { r with Ports := ports, PortStart := ps, PortEnd := pe },
          ovsMatches := none }).map Prod.fst =
      (SecurityRule.OvsMatches M { r := r, ovsMatches := none }).map Prod.fst) := by
  simp only [OvsMatches_fresh]
  refine ⟨?_, ?_, computeMatches_icmp_none M r hproto, ?_⟩
  · intro n hn hm
    obtain ⟨a, ha, hres⟩ := computeMatches_icmp_some M r n hproto hn
    refine ⟨a, ha, ?_⟩
    rw [hres, hm, String.append_assoc]
    rfl
  · intro n hn hm
    obtain ⟨a, ha, hres⟩ := computeMatches_icmp_some M r n hproto hn
    refine ⟨a, ha, ?_⟩
    rw [hres, hm, String.append_assoc]
    rfl
  · intro ports ps pe
    have hcase : r.IPNet = none ∨ ∃ n, r.IPNet = some n := by
      cases r.IPNet with
      | none => exact Or.inl rfl
      | some n => exact Or.inr ⟨n, rfl⟩
    rcases hcase with hn | ⟨n, hn⟩
    · rw [computeMatches_icmp_none M r hproto hn,
        computeMatches_icmp_none M _ (by exact hproto) (by exact hn)]
    · obtain ⟨a, ha, hres⟩ := computeMatches_icmp_some M r n hproto hn
      obtain ⟨b, hb, hres2⟩ := computeMatches_icmp_some M
        { r with Ports := ports, PortStart := ps, PortEnd := pe } n (by exact hproto)
        (by exact hn)
      rw [addressToken_ports, ha] at hb
      rw [hres, hres2, Option.some.inj hb]

/-- Instance of C10: the inbound icmp rule on 10.0.0.0/24 with an explicit port
and a port range compiles to the single clause `ip,nw_src=10.0.0.0/24,icmp`. -/
theorem OvsMatches_icmp_witness :
    ({ sampleRule DIR_IN SecurityRuleAllow "icmp" with
        IPNet := some sampleNet, Ports := [80], PortStart := 10, PortEnd := 19 } :
      secrules.SecurityRule).Protocol = PROTO_ICMP ∧
    (SecurityRule.OvsMatches sampleMatchCIDR6
      { r := { sampleRule DIR_IN SecurityRuleAllow "icmp" with
                IPNet := some sampleNet, Ports := [80], PortStart := 10, PortEnd := 19 },
        ovsMatches := none }).map Prod.fst = some ["ip,nw_src=10.0.0.0/24,icmp"] :=
  ⟨rfl, by
    obtain ⟨a, ha, hres⟩ :=
      (OvsMatches_icmp sampleMatchCIDR6
        { sampleRule DIR_IN SecurityRuleAllow "icmp" with
          IPNet := some sampleNet, Ports := [80], PortStart := 10, PortEnd := 19 } rfl).1
        sampleNet rfl (by decide)
    rw [hres]
    have : a = "ip,nw_src=10.0.0.0/24" := (Option.some.inj ha).symm.trans (by decide)
    rw [this]
    decide⟩

theorem rangeTokens_eq_map (tpField : String) :
    ∀ ms : List (Nat × Nat), (∀ b ∈ ms, b.1 ≠ 0 ∧ b.2 ≠ 0) →
      rangeTokens tpField ms = ms.map (fun b => tpField ++ renderBlock b) := by
  intro ms
  induction ms with
  | nil => intro _; rfl
  | cons m rest ih =>
    intro h
    have hm := h m (by simp)
    have hrest := ih (fun b hb => h b (by simp [hb]))
    unfold rangeTokens
    rw [hrest]
    by_cases hff : m.2 = 0xffff
    · simp [hff, renderBlock]
    · simp [hff, hm.1, hm.2, renderBlock, String.append_assoc]

theorem Blocks_positive {ep sp : Nat} {l : List (Nat × Nat)} (h : Blocks ep sp l)
    (hsp : 1 ≤ sp) (hep : ep ≤ 65536) : ∀ b ∈ l, b.1 ≠ 0 ∧ b.2 ≠ 0 := by
  intro b hb
  obtain ⟨k, hk, hm, _, h4, h5⟩ := Blocks_shape h b hb
  refine ⟨by omega, ?_⟩
  intro h0
  rw [hm] at h0
  have hk16 : k = 16 := by
    by_contra hne
    have hlt : k < 16 := by omega
    interval_cases k <;> simp at h0
  subst hk16
  norm_num at h5
  omega

theorem Blocks_ne_nil {ep sp : Nat} {l : List (Nat × Nat)} (h : Blocks ep sp l)
    (hlt : sp < ep) : l ≠ [] := by
  cases h with
  | done => omega
  | step sp k l _ _ _ _ _ => simp

theorem joinMatches_cons (nwMatch protoMatch : String) (tpMatch : List String)
    (htp : tpMatch ≠ []) (hp : 0 < protoMatch.length) :
    joinMatches nwMatch protoMatch tpMatch =
      tpMatch.map (fun tpm =>
        (if 0 < nwMatch.length then nwMatch ++ "," ++ protoMatch else protoMatch) ++ "," ++ tpm) := by
  unfold joinMatches
  have hlen : ¬ tpMatch.length = 0 := by
    intro h0; exact htp (List.length_eq_zero.1 h0)
  by_cases hnw : 0 < nwMatch.length
  · have h1 : 0 < (nwMatch ++ "," ++ protoMatch).length := by
      rw [String.length_append]; omega
    simp [hlen, hnw, hp, h1]
  · have h0 : nwMatch.length = 0 := by omega
    simp [hlen, h0, hp]

theorem append_tp_dst (m x : String) :
    m ++ "," ++ ("tp_dst=" ++ x) = m ++ ",tp_dst=" ++ x := by
  have e : "," ++ "tp_dst=" = ",tp_dst=" := by decide
  rw [String.append_assoc, String.append_assoc, ← String.append_assoc "," "tp_dst=" x, e]

theorem toU16_of_port (x : Int) (h0 : 0 ≤ x) (h1 : x ≤ 65535) : toU16 x = x.toNat := by
  unfold toU16
  rw [Int.emod_eq_of_lt h0 (by omega)]

theorem computeMatches_port_range (M : String → Bool) (r : secrules.SecurityRule)
    (hproto : r.Protocol = PROTO_TCP ∨ r.Protocol = PROTO_UDP) (hports : r.Ports = [])
    (h1 : 0 < r.PortStart) (h2 : r.PortStart ≤ r.PortEnd) (h3 : r.PortEnd ≤ 65535) :
    ∃ blocks, PortRangeToMasks r.PortStart.toNat r.PortEnd.toNat = some blocks ∧
      Blocks (r.PortEnd.toNat + 1) r.PortStart.toNat blocks ∧
      computeMatches M r = some (blocks.map (fun b =>
        baseConjunction M r r.Protocol ++ ",tp_dst=" ++ renderBlock b)) := by
  obtain ⟨blocks, hb, hB⟩ := PortRangeToMasks_spec r.PortStart.toNat r.PortEnd.toNat
    (by omega) (by omega)
  refine ⟨blocks, hb, hB, ?_⟩
  have hpos := Blocks_positive hB (by omega) (by omega)
  have hne := Blocks_ne_nil hB (by omega)
  have hplen : 0 < r.Protocol.length := by
    rcases hproto with h | h <;> rw [h] <;> decide
  have hnotany : ¬ r.Protocol = PROTO_ANY := by
    rcases hproto with h | h <;> rw [h] <;> decide
  have hpne : ¬ r.Protocol = "" := by
    rcases hproto with h | h <;> rw [h] <;> decide
  have hpm : ∀ nwProto nwMatch, protocolMatch r "tp_dst=" nwProto nwMatch =
      some (r.Protocol, blocks.map (fun b => "tp_dst=" ++ renderBlock b)) := by
    intro nwProto nwMatch
    unfold protocolMatch
    rw [if_neg hnotany, if_pos hproto]
    simp only [hports, List.map_nil, List.nil_append]
    rw [if_pos ⟨h1, h2⟩, toU16_of_port _ (by omega) (by omega),
      toU16_of_port _ (by omega) h3, hb]
    simp only [rangeTokens_eq_map "tp_dst=" blocks hpos]
  have htp : blocks.map (fun b => "tp_dst=" ++ renderBlock b) ≠ [] := by
    simpa using hne
  unfold computeMatches
  simp only [directionFields_tp, hpm]
  rw [joinMatches_cons _ _ _ htp hplen, List.map_map]
  congr 1
  apply List.map_congr_left
  intro b _
  have hcase : r.IPNet = none ∨ ∃ n, r.IPNet = some n := by
    cases r.IPNet with
    | none => exact Or.inl rfl
    | some n => exact Or.inr ⟨n, rfl⟩
  rcases hcase with hn | ⟨n, hn⟩
  · obtain ⟨ha, hm⟩ := addressMatch_none M r hn
    simp only [Function.comp, hm, baseConjunction, ha]
    have : ¬ 0 < "".length := by decide
    rw [if_neg this, append_tp_dst]
  · obtain ⟨a, ha, hapos, hm⟩ := addressMatch_some M r n hn
    simp only [Function.comp, hm, baseConjunction, ha]
    rw [if_pos hapos, if_neg hpne, append_tp_dst]

/-- C8: a tcp or udp rule with no explicit port and a port range
`0 < PortStart ≤ PortEnd ≤ 65535` compiles to exactly one clause per block of
`PortRangeToMasks PortStart PortEnd`, in the order of the blocks; the clause of a
block is the base conjunction (address token, then protocol name), followed by
`,tp_dst=` and the rendering of the block: the decimal base when the mask is
`0xFFFF`, `0x<hex base>/0x<hex mask>` otherwise. -/
theorem OvsMatches_port_range (M : String → Bool) (r : secrules.SecurityRule)
    (hproto : r.Protocol = PROTO_TCP ∨ r.Protocol = PROTO_UDP) (hports : r.Ports = [])
    (h1 : 0 < r.PortStart) (h2 : r.PortStart ≤ r.PortEnd) (h3 : r.PortEnd ≤ 65535) :
    ∃ blocks, PortRangeToMasks r.PortStart.toNat r.PortEnd.toNat = some blocks ∧
      (SecurityRule.OvsMatches M { r := r, ovsMatches := none }).map Prod.fst =
        some (blocks.map (fun b =>
          baseConjunction M r r.Protocol ++ ",tp_dst=" ++ renderBlock b)) := by
  obtain ⟨blocks, hb, _, hres⟩ := computeMatches_port_range M r hproto hports h1 h2 h3
  exact ⟨blocks, hb, by rw [OvsMatches_fresh, hres]⟩

theorem sampleBlocks_exact (p : Nat) (hp : p ≤ 65535) :
    (10 ≤ p ∧ p ≤ 19) ↔
      ∃ bm ∈ [((10 : Nat), (0xfffe : Nat)), (12, 0xfffc), (16, 0xfffc)], p &&& bm.2 = bm.1 := by
  obtain ⟨l, hl, hB⟩ := PortRangeToMasks_spec 10 19 (by decide) (by decide)
  have hl2 : PortRangeToMasks 10 19 = some [(10, 0xfffe), (12, 0xfffc), (16, 0xfffc)] := by
    decide
  rw [hl2] at hl
  rw [Option.some.inj hl, Blocks_cover hB p (by omega)]
  omega

/-- Instance of C8: the inbound tcp rule with the range 10..19 and no address
compiles to three clauses, whose port constraints admit exactly the ports 10..19. -/
theorem OvsMatches_port_range_witness :
    (({ sampleRule DIR_IN SecurityRuleAllow "tcp" with PortStart := 10, PortEnd := 19 } :
        secrules.SecurityRule).Protocol = PROTO_TCP ∨
      ({ sampleRule DIR_IN SecurityRuleAllow "tcp" with PortStart := 10, PortEnd := 19 } :
        secrules.SecurityRule).Protocol = PROTO_UDP) ∧
    (∃ blocks, PortRangeToMasks 10 19 = some blocks ∧
      (SecurityRule.OvsMatches sampleMatchCIDR6
        { r := { sampleRule DIR_IN SecurityRuleAllow "tcp" with PortStart := 10, PortEnd := 19 },
          ovsMatches := none }).map Prod.fst =
        some (blocks.map (fun b => "tcp" ++ ",tp_dst=" ++ renderBlock b))) ∧
    (SecurityRule.OvsMatches sampleMatchCIDR6
      { r := { sampleRule DIR_IN SecurityRuleAllow "tcp" with PortStart := 10, PortEnd := 19 },
        ovsMatches := none }).map Prod.fst =
      some ["tcp,tp_dst=0xa/0xfffe", "tcp,tp_dst=0xc/0xfffc", "tcp,tp_dst=0x10/0xfffc"] ∧
    (∀ p, p ≤ 65535 → ((10 ≤ p ∧ p ≤ 19) ↔
      ∃ bm ∈ [((10 : Nat), (0xfffe : Nat)), (12, 0xfffc), (16, 0xfffc)], p &&& bm.2 = bm.1)) :=
  ⟨Or.inl rfl,
   OvsMatches_port_range sampleMatchCIDR6
     { sampleRule DIR_IN SecurityRuleAllow "tcp" with PortStart := 10, PortEnd := 19 }
     (Or.inl rfl) rfl (by decide) (by decide) (by decide),
   by decide,
   sampleBlocks_exact⟩

/-! ## Further properties of PortRangeToMasks -/

theorem fits_mono {sp ep i j : Nat} (h : fits sp ep j) (hij : i ≤ j) : fits sp ep i := by
  have hle : 2 ^ i ≤ 2 ^ j := Nat.pow_le_pow_right (by decide) hij
  exact ⟨by have := h.1; omega, Nat.dvd_trans (Nat.pow_dvd_pow 2 hij) h.2⟩

theorem Blocks_nil_eq {ep sp : Nat} (h : Blocks ep sp []) : sp = ep := by
  cases h
  rfl

theorem Blocks_head {ep sp : Nat} {l : List (Nat × Nat)} (h : Blocks ep sp l)
    (hl : 0 < l.length) : l[0].1 = sp := by
  cases h with
  | done => simp at hl
  | step sp k l _ _ _ _ _ => rfl

theorem Blocks_greedy {ep sp : Nat} {l : List (Nat × Nat)} (h : Blocks ep sp l) :
    ∀ (i : Nat) (hi : i < l.length), ∃ k, k ≤ 16 ∧
      l[i].2 = (2 ^ 16 - 2 ^ k) % 2 ^ 16 ∧
      l[i].1 + 2 ^ k ≤ ep ∧ 2 ^ k ∣ l[i].1 ∧
      (∀ j, k < j → ¬ (l[i].1 + 2 ^ j ≤ ep ∧ 2 ^ j ∣ l[i].1)) ∧
      (∀ (hn : i + 1 < l.length), l[i + 1].1 = l[i].1 + 2 ^ k) ∧
      (i + 1 = l.length → l[i].1 + 2 ^ k = ep) := by
  induction h with
  | done => intro i hi; simp at hi
  | step sp k l hlt hk hfit hmax hB ih =>
    intro i hi
    cases i with
    | zero =>
      refine ⟨k, hk, rfl, hfit.1, hfit.2, ?_, ?_, ?_⟩
      · intro j hj hfj
        exact hmax (fits_mono (show fits sp _ j from hfj) (by omega))
      · intro hn
        have hl : 0 < l.length := by simpa using hn
        simpa using Blocks_head hB hl
      · intro hlen
        have hnil : l = [] := by
          apply List.length_eq_zero.1
          simpa using hlen.symm
        subst hnil
        simpa using Blocks_nil_eq hB
    | succ i =>
      have hi2 : i < l.length := by simpa using hi
      obtain ⟨k2, h1, h2, h3, h4, h5, h6, h7⟩ := ih i hi2
      refine ⟨k2, h1, by simpa using h2, by simpa using h3, by simpa using h4, ?_, ?_, ?_⟩
      · simpa using h5
      · intro hn
        have hn2 : i + 1 < l.length := by simpa using hn
        simpa using h6 hn2
      · intro hlen
        have : i + 1 = l.length := by simpa using hlen
        simpa using h7 this

theorem Blocks_len_tail {ep sp : Nat} {l : List (Nat × Nat)} (h : Blocks ep sp l) :
    ∀ K, 2 ^ K ∣ sp → ep - sp < 2 ^ K → l.length ≤ K := by
  induction h with
  | done => intro K _ _; simp
  | step sp k l hlt hk hfit hmax hB ih =>
    intro K hdvd hrem
    have hk0 := Nat.two_pow_pos k
    have hkK : k < K := pow_lt_pow_imp (by have := hfit.1; omega)
    have hdk : 2 ^ (k + 1) ∣ sp := Nat.dvd_trans (Nat.pow_dvd_pow 2 hkK) hdvd
    have hover : ep < sp + 2 ^ (k + 1) := by
      by_contra hc
      exact hmax ⟨by omega, hdk⟩
    have hp : 2 ^ (k + 1) = 2 * 2 ^ k := by rw [Nat.pow_succ]; omega
    have := ih k (Nat.dvd_add hfit.2 (Nat.dvd_refl _)) (by omega)
    simp only [List.length_cons]
    omega

theorem dvd_add_pow_succ {k sp : Nat} (h1 : 2 ^ k ∣ sp) (h2 : ¬ 2 ^ (k + 1) ∣ sp) :
    2 ^ (k + 1) ∣ sp + 2 ^ k := by
  obtain ⟨q, rfl⟩ := h1
  rcases Nat.even_or_odd q with ⟨m, hm⟩ | ⟨m, hm⟩
  · exfalso
    apply h2
    exact ⟨m, by rw [hm, Nat.pow_succ]; ring⟩
  · exact ⟨m + 1, by rw [hm, Nat.pow_succ]; ring⟩

theorem pow_dvd_le15 {a sp : Nat} (h : 2 ^ a ∣ sp) (h0 : 0 < sp) (h1 : sp < 65536) : a ≤ 15 := by
  by_contra hc
  have h16 : 2 ^ 16 ≤ 2 ^ a := Nat.pow_le_pow_right (by decide) (by omega)
  have := Nat.le_of_dvd h0 h
  norm_num at h16
  omega

theorem Blocks_len_pos {ep sp : Nat} {l : List (Nat × Nat)} (h : Blocks ep sp l)
    (hep : ep ≤ 65536) : 0 < sp → ∀ a, 2 ^ a ∣ sp → l.length + a ≤ 30 := by
  induction h with
  | done =>
    intro h0 a ha
    have h2 : 2 ^ a ≤ ep := Nat.le_of_dvd h0 ha
    have : a < 17 := pow_lt_pow_imp (by norm_num; omega)
    simp
    omega
  | step sp k l hlt hk hfit hmax hB ih =>
    intro h0 a ha
    have hk0 := Nat.two_pow_pos k
    have ha15 : a ≤ 15 := pow_dvd_le15 ha h0 (by omega)
    have hk15 : k ≤ 15 := pow_dvd_le15 hfit.2 h0 (by omega)
    have hp : 2 ^ (k + 1) = 2 * 2 ^ k := by rw [Nat.pow_succ]; omega
    simp only [List.length_cons]
    by_cases hlen : sp + 2 ^ (k + 1) ≤ ep
    · have hnd : ¬ 2 ^ (k + 1) ∣ sp := fun hd => hmax ⟨hlen, hd⟩
      have hak : a ≤ k := by
        by_contra hc
        exact hnd (Nat.dvd_trans (Nat.pow_dvd_pow 2 (by omega)) ha)
      have := ih (by omega) (k + 1) (dvd_add_pow_succ hfit.2 hnd)
      omega
    · have htail := Blocks_len_tail hB k (Nat.dvd_add hfit.2 (Nat.dvd_refl _)) (by omega)
      by_cases hk15e : k = 15
      · subst hk15e
        have hsp : 2 ^ 15 ≤ sp := Nat.le_of_dvd h0 hfit.2
        have h1 := hfit.1
        have hz := Blocks_len_tail hB 0 (by simp) (by norm_num at hsp h1 ⊢; omega)
        omega
      · omega

theorem Blocks_len_le {ep sp : Nat} {l : List (Nat × Nat)} (h : Blocks ep sp l)
    (hep : ep ≤ 65536) : l.length ≤ 30 := by
  by_cases h0 : 0 < sp
  · have := Blocks_len_pos h hep h0 0 (by simp)
    omega
  · have hz : sp = 0 := by omega
    subst hz
    cases h with
    | done => simp
    | step _ k l hlt hk hfit hmax hB =>
      have hk0 := Nat.two_pow_pos k
      have hp : 2 ^ (k + 1) = 2 * 2 ^ k := by rw [Nat.pow_succ]; omega
      have hover : ep < 0 + 2 ^ (k + 1) := by
        by_contra hc
        exact hmax ⟨by omega, Nat.dvd_zero _⟩
      have htail := Blocks_len_tail hB k (by simp) (by omega)
      simp only [List.length_cons]
      omega

/-- C12: for every `k` (in particular every port 0..65535) `PortRangeToMasks k k`
is exactly the one-element list `[(k, 0xFFFF)]`. -/
theorem PortRangeToMasks_single (k : Nat) : PortRangeToMasks k k = some [(k, 0xFFFF)] := by
  unfold PortRangeToMasks
  rw [if_pos rfl]
  rfl

/-- C13: `PortRangeToMasks 0 65535` is exactly `[(0, 0)]`: the exclusive bound is
65536 without wrap-around, the inner loop leaves `b` at 131072 so that the block
size is 65536, and the 16-bit mask of that size is 0. -/
theorem PortRangeToMasks_full_range :
    PortRangeToMasks 0 65535 = some [(0, 0)] ∧
    u32 (65535 + 1) = 65536 ∧
    growBlock 33 0 65536 1 = some 131072 ∧
    131072 >>> 1 = 65536 ∧
    u16 (u32 (65536 + (2 ^ 32 - 1)) ^^^ (2 ^ 32 - 1)) = 0 := by
  refine ⟨by decide, by decide, by decide, by decide, by decide⟩

/-- C16 fails as stated: the range 1..65534 decomposes into 30 blocks, more
than 16. -/
theorem PortRangeToMasks_more_than_sixteen :
    ∃ l, PortRangeToMasks 1 65534 = some l ∧ l.length = 30 ∧ ¬ l.length ≤ 16 := by
  have h : (PortRangeToMasks 1 65534).map List.length = some 30 := by decide
  cases hl : PortRangeToMasks 1 65534 with
  | none => rw [hl] at h; cases h
  | some l =>
    rw [hl] at h
    have h30 : l.length = 30 := Option.some.inj h
    exact ⟨l, rfl, h30, by omega⟩

/-- C16 as amended: for `s ≤ e ≤ 65535` the decomposition returns a list of at most
30 blocks, that is, the outer loop runs at most 30 times. -/
theorem PortRangeToMasks_block_count (s e : Nat) (hse : s ≤ e) (he : e ≤ 65535) :
    ∃ l, PortRangeToMasks s e = some l ∧ l.length ≤ 30 := by
  obtain ⟨l, hl, hB⟩ := PortRangeToMasks_spec s e hse he
  exact ⟨l, hl, Blocks_len_le hB (by omega)⟩

/-- Instance of the amended C16 at the range 1..65534, where the bound is reached. -/
theorem PortRangeToMasks_block_count_witness :
    1 ≤ 65534 ∧ 65534 ≤ 65535 ∧ ∃ l, PortRangeToMasks 1 65534 = some l ∧ l.length ≤ 30 :=
  ⟨by decide, by decide, PortRangeToMasks_block_count 1 65534 (by decide) (by decide)⟩

/-- C17: for `s < e ≤ 65535` the returned list is not empty, its first block starts
at `s`, and every block `i` has a size `2 ^ k` (its mask is `(2 ^ 16 - 2 ^ k) mod
2 ^ 16`) that is the largest power of two `b` with `pos_i + b ≤ e + 1` and
`pos_i mod b = 0`; the next block starts at `pos_i + 2 ^ k`, and the last block
ends at `e`. -/
theorem PortRangeToMasks_greedy (s e : Nat) (hse : s < e) (he : e ≤ 65535) :
    ∃ l, PortRangeToMasks s e = some l ∧ 0 < l.length ∧
      (∀ (h0 : 0 < l.length), l[0].1 = s) ∧
      ∀ (i : Nat) (hi : i < l.length), ∃ k, k ≤ 16 ∧
        l[i].2 = (2 ^ 16 - 2 ^ k) % 2 ^ 16 ∧
        l[i].1 + 2 ^ k ≤ e + 1 ∧ l[i].1 % 2 ^ k = 0 ∧
        (∀ j, k < j → ¬ (l[i].1 + 2 ^ j ≤ e + 1 ∧ l[i].1 % 2 ^ j = 0)) ∧
        (∀ (hn : i + 1 < l.length), l[i + 1].1 = l[i].1 + 2 ^ k) ∧
        (i + 1 = l.length → l[i].1 + 2 ^ k = e + 1) := by
  obtain ⟨l, hl, hB⟩ := PortRangeToMasks_spec s e (by omega) he
  have hne : l ≠ [] := by
    intro h0
    subst h0
    have := Blocks_nil_eq hB
    omega
  refine ⟨l, hl, List.length_pos.2 hne, fun h0 => Blocks_head hB h0, ?_⟩
  intro i hi
  obtain ⟨k, h1, h2, h3, h4, h5, h6, h7⟩ := Blocks_greedy hB i hi
  refine ⟨k, h1, h2, h3, Nat.mod_eq_zero_of_dvd h4, ?_, h6, h7⟩
  intro j hj hc
  exact h5 j hj ⟨hc.1, Nat.dvd_of_mod_eq_zero hc.2⟩

/-- Instance of C17 at the range 10..19. -/
theorem PortRangeToMasks_greedy_witness :
    10 < 19 ∧ 19 ≤ 65535 ∧
    ∃ l, PortRangeToMasks 10 19 = some l ∧ 0 < l.length ∧
      (∀ (h0 : 0 < l.length), l[0].1 = 10) ∧
      ∀ (i : Nat) (hi : i < l.length), ∃ k, k ≤ 16 ∧
        l[i].2 = (2 ^ 16 - 2 ^ k) % 2 ^ 16 ∧
        l[i].1 + 2 ^ k ≤ 19 + 1 ∧ l[i].1 % 2 ^ k = 0 ∧
        (∀ j, k < j → ¬ (l[i].1 + 2 ^ j ≤ 19 + 1 ∧ l[i].1 % 2 ^ j = 0)) ∧
        (∀ (hn : i + 1 < l.length), l[i + 1].1 = l[i].1 + 2 ^ k) ∧
        (i + 1 = l.length → l[i].1 + 2 ^ k = 19 + 1) :=
  ⟨by decide, by decide, PortRangeToMasks_greedy 10 19 (by decide) (by decide)⟩

/-- C18: for 16-bit `s > e` the function terminates without entering its loop and
returns the empty list: no block and no mask is emitted. -/
theorem PortRangeToMasks_reversed (s e : Nat) (hes : e < s) (hs : s ≤ 65535) :
    PortRangeToMasks s e = some [] := by
  have hu : u32 (e + 1) = e + 1 := by unfold u32; apply Nat.mod_eq_of_lt; omega
  unfold PortRangeToMasks
  rw [if_neg (by omega), hu]
  unfold maskLoop
  rw [if_neg (by omega)]

/-- Instance of C18 at `s = 19`, `e = 10`. -/
theorem PortRangeToMasks_reversed_witness :
    10 < 19 ∧ 19 ≤ 65535 ∧ PortRangeToMasks 19 10 = some [] :=
  ⟨by decide, by decide, PortRangeToMasks_reversed 19 10 (by decide) (by decide)⟩

/-! ## Further properties of the match compilation -/

theorem rangeTokens_two_branch (tpField : String) :
    ∀ ms : List (Nat × Nat), (∀ b ∈ ms, b.1 ≠ 0 ∧ b.2 ≠ 0) →
      rangeTokens tpField ms = ms.map (fun m =>
        if m.2 = 0xffff then tpField ++ toString m.1
        else tpField ++ ("0x" ++ hex m.1) ++ "/0x" ++ hex m.2) := by
  intro ms
  induction ms with
  | nil => intro _; rfl
  | cons m rest ih =>
    intro h
    have hm := h m (by simp)
    have hrest := ih (fun b hb => h b (by simp [hb]))
    unfold rangeTokens
    rw [hrest]
    by_cases hff : m.2 = 0xffff
    · simp [hff]
    · simp [hff, hm.1, hm.2]

theorem toU16_lt (x : Int) : toU16 x < 65536 := by
  unfold toU16
  have h1 : 0 ≤ x % 65536 := Int.emod_nonneg x (by decide)
  have h2 : x % 65536 < 65536 := Int.emod_lt_of_pos x (by decide)
  omega

theorem toU16_natCast (n : Nat) (h : n ≤ 65535) : toU16 (n : Int) = n := by
  rw [toU16_of_port _ (by omega) (by omega)]
  simp

theorem protocolMatch_tcp_udp (r : secrules.SecurityRule) (tpField nwProto nwMatch : String)
    (hproto : r.Protocol = PROTO_TCP ∨ r.Protocol = PROTO_UDP) :
    protocolMatch r tpField nwProto nwMatch =
      if 0 < r.PortStart ∧ r.PortStart ≤ r.PortEnd then
        (PortRangeToMasks (toU16 r.PortStart) (toU16 r.PortEnd)).map (fun ms =>
          (r.Protocol, r.Ports.map (fun p => tpField ++ toString p) ++ rangeTokens tpField ms))
      else some (r.Protocol, r.Ports.map (fun p => tpField ++ toString p)) := by
  have hnotany : ¬ r.Protocol = PROTO_ANY := by
    rcases hproto with h | h <;> rw [h] <;> decide
  unfold protocolMatch
  rw [if_neg hnotany, if_pos hproto]
  by_cases hr : 0 < r.PortStart ∧ r.PortStart ≤ r.PortEnd
  · simp only [if_pos hr]
    cases PortRangeToMasks (toU16 r.PortStart) (toU16 r.PortEnd) <;> rfl
  · simp only [if_neg hr]

/-- C19: for `0 < s ≤ e ≤ 65535` no block of `PortRangeToMasks s e` has mask 0 or
base 0 (every base is at least `s`), so the loop over the blocks in `OvsMatches`
takes only its exact-port branch and its hexadecimal branch with a non-zero base,
and emits one token per block; the protocol switch of a tcp or udp rule with that
range therefore yields the port tokens followed by one token per block.  Over all
16-bit inputs a block with mask 0 occurs only for `(0, 65535)`. -/
theorem PortRangeToMasks_no_zero_mask (s e : Nat) (hs : s ≤ 65535) (he : e ≤ 65535) :
    ∃ l, PortRangeToMasks s e = some l ∧
      (0 < s → s ≤ e →
        (∀ bm ∈ l, bm.2 ≠ 0 ∧ bm.1 ≠ 0 ∧ s ≤ bm.1) ∧
        (∀ tpField, rangeTokens tpField l = l.map (fun m =>
          if m.2 = 0xffff then tpField ++ toString m.1
          else tpField ++ ("0x" ++ hex m.1) ++ "/0x" ++ hex m.2)) ∧
        (∀ (r : secrules.SecurityRule) (tpField nwProto nwMatch : String),
          r.Protocol = PROTO_TCP ∨ r.Protocol = PROTO_UDP →
          r.PortStart = (s : Int) → r.PortEnd = (e : Int) →
          protocolMatch r tpField nwProto nwMatch =
            some (r.Protocol, r.Ports.map (fun p => tpField ++ toString p) ++
              l.map (fun m =>
                if m.2 = 0xffff then tpField ++ toString m.1
                else tpField ++ ("0x" ++ hex m.1) ++ "/0x" ++ hex m.2)))) ∧
      ((∃ bm ∈ l, bm.2 = 0) → s = 0 ∧ e = 65535) := by
  by_cases hse : s ≤ e
  · obtain ⟨l, hl, hB⟩ := PortRangeToMasks_spec s e hse he
    refine ⟨l, hl, ?_, ?_⟩
    · intro h0 _
      have hpos := Blocks_positive hB (by omega) (by omega)
      have hrt := rangeTokens_two_branch
      refine ⟨?_, fun tpField => hrt tpField l hpos, ?_⟩
      · intro bm hbm
        obtain ⟨k, _, _, _, h4, _⟩ := Blocks_shape hB bm hbm
        exact ⟨(hpos bm hbm).2, (hpos bm hbm).1, h4⟩
      · intro r tpField nwProto nwMatch hproto hps hpe
        rw [protocolMatch_tcp_udp r tpField nwProto nwMatch hproto,
          if_pos (by rw [hps, hpe]; omega), hps, hpe, toU16_natCast s hs, toU16_natCast e he,
          hl]
        simp only [Option.map_some', hrt tpField l hpos]
    · rintro ⟨bm, hbm, hz⟩
      obtain ⟨k, hk, hm, hd, h4, h5⟩ := Blocks_shape hB bm hbm
      rw [hm] at hz
      have hk16 : k = 16 := by
        by_contra hne
        have hlt : k < 16 := by omega
        interval_cases k <;> simp at hz
      subst hk16
      norm_num at h5
      omega
  · refine ⟨[], PortRangeToMasks_reversed s e (by omega) hs, fun _ h => absurd h hse, ?_⟩
    rintro ⟨bm, hbm, _⟩
    simp at hbm

/-- Instance of C19 at the range 10..19. -/
theorem PortRangeToMasks_no_zero_mask_witness :
    10 ≤ 65535 ∧ 19 ≤ 65535 ∧ 0 < 10 ∧ 10 ≤ 19 ∧
    ∃ l, PortRangeToMasks 10 19 = some l ∧ ∀ bm ∈ l, bm.2 ≠ 0 ∧ bm.1 ≠ 0 ∧ 10 ≤ bm.1 :=
  ⟨by decide, by decide, by decide, by decide, by
    obtain ⟨l, hl, h1, _⟩ := PortRangeToMasks_no_zero_mask 10 19 (by decide) (by decide)
    exact ⟨l, hl, (h1 (by decide) (by decide)).1⟩⟩

theorem protocolMatch_total (r : secrules.SecurityRule) (tpField nwProto nwMatch : String) :
    ∃ pt, protocolMatch r tpField nwProto nwMatch = some pt := by
  by_cases htu : r.Protocol = PROTO_TCP ∨ r.Protocol = PROTO_UDP
  · rw [protocolMatch_tcp_udp r tpField nwProto nwMatch htu]
    by_cases hr : 0 < r.PortStart ∧ r.PortStart ≤ r.PortEnd
    · rw [if_pos hr]
      obtain ⟨l, hl⟩ := PortRangeToMasks_total (toU16 r.PortStart) (toU16 r.PortEnd)
        (by have := toU16_lt r.PortStart; omega) (by have := toU16_lt r.PortEnd; omega)
      rw [hl]
      exact ⟨_, rfl⟩
    · rw [if_neg hr]
      exact ⟨_, rfl⟩
  · unfold protocolMatch
    rw [if_neg htu]
    by_cases h1 : r.Protocol = PROTO_ANY
    · rw [if_pos h1]; exact ⟨_, rfl⟩
    · rw [if_neg h1]
      by_cases h2 : r.Protocol = PROTO_ICMP
      · rw [if_pos h2]
        by_cases h3 : nwProto = "ipv6"
        · rw [if_pos h3]; exact ⟨_, rfl⟩
        · rw [if_neg h3]
          by_cases h4 : nwProto = "ip"
          · rw [if_pos h4]; exact ⟨_, rfl⟩
          · rw [if_neg h4]; exact ⟨_, rfl⟩
      · rw [if_neg h2]; exact ⟨_, rfl⟩

theorem computeMatches_total (M : String → Bool) (r : secrules.SecurityRule) :
    ∃ ms, computeMatches M r = some ms := by
  unfold computeMatches
  obtain ⟨pt, hpt⟩ := protocolMatch_total r (directionFields r.Direction).2.2
    (addressMatch M (directionFields r.Direction).1 (directionFields r.Direction).2.1 r.IPNet).1
    (addressMatch M (directionFields r.Direction).1 (directionFields r.Direction).2.1 r.IPNet).2
  simp only [hpt]
  exact ⟨_, rfl⟩

/-- C14: a call of `OvsMatches` returns a list and a record that differs from the
record before the call at most in its cache, which then holds the returned list;
a further call on that record returns the same list and the same record.  On a
record with an empty cache the returned list is the list computed from the wrapped
rule alone; on a record with a filled cache the call returns the cache and leaves
the record as it is. -/
theorem OvsMatches_idempotent (M : String → Bool) (sr : SecurityRule) :
    ∃ ms sr1, SecurityRule.OvsMatches M sr = some (ms, sr1) ∧
      sr1.r = sr.r ∧ sr1.ovsMatches = some ms ∧
      SecurityRule.OvsMatches M sr1 = some (ms, sr1) ∧
      (sr.ovsMatches = none → computeMatches M sr.r = some ms) ∧
      (∀ c, sr.ovsMatches = some c → ms = c ∧ sr1 = sr) := by
  cases hc : sr.ovsMatches with
  | some c =>
    refine ⟨c, sr, ?_, rfl, hc, ?_, ?_, ?_⟩
    · unfold SecurityRule.OvsMatches; rw [hc]
    · unfold SecurityRule.OvsMatches; rw [hc]
    · intro h; cases h
    · intro c2 h2
      exact ⟨(Option.some.inj h2), rfl⟩
  | none =>
    obtain ⟨ms, hms⟩ := computeMatches_total M sr.r
    refine ⟨ms, { sr with ovsMatches := some ms }, ?_, rfl, rfl, ?_, fun _ => hms, ?_⟩
    · unfold SecurityRule.OvsMatches; rw [hc, hms]
    · rfl
    · intro c h; cases h

/-- Instance of C14: the wild-match outbound record, first with an empty cache and
then with the cache that the first call filled. -/
theorem OvsMatches_idempotent_witness :
    SecurityRule.OvsMatches sampleMatchCIDR6
      { r := sampleRule DIR_OUT SecurityRuleAllow "any", ovsMatches := none } =
      some (["ipv6", "ip"],
        { r := sampleRule DIR_OUT SecurityRuleAllow "any", ovsMatches := some ["ipv6", "ip"] }) ∧
    SecurityRule.OvsMatches sampleMatchCIDR6
      { r := sampleRule DIR_OUT SecurityRuleAllow "any", ovsMatches := some ["ipv6", "ip"] } =
      some (["ipv6", "ip"],
        { r := sampleRule DIR_OUT SecurityRuleAllow "any", ovsMatches := some ["ipv6", "ip"] }) := by
  obtain ⟨ms, sr1, h1, _, _, h4, _, _⟩ := OvsMatches_idempotent sampleMatchCIDR6
    { r := sampleRule DIR_OUT SecurityRuleAllow "any", ovsMatches := none }
  have hfirst : SecurityRule.OvsMatches sampleMatchCIDR6
      { r := sampleRule DIR_OUT SecurityRuleAllow "any", ovsMatches := none } =
      some (["ipv6", "ip"],
        { r := sampleRule DIR_OUT SecurityRuleAllow "any", ovsMatches := some ["ipv6", "ip"] }) := by
    decide
  rw [hfirst] at h1
  have hpair := Option.some.inj h1
  have hms : ms = ["ipv6", "ip"] := (congrArg Prod.fst hpair).symm
  have hsr : sr1 = { r := sampleRule DIR_OUT SecurityRuleAllow "any",
                     ovsMatches := some ["ipv6", "ip"] } := (congrArg Prod.snd hpair).symm
  rw [hms, hsr] at h4
  exact ⟨hfirst, h4⟩

theorem joinMatches_ne_nil (nwMatch protoMatch : String) (tpMatch : List String) :
    joinMatches nwMatch protoMatch tpMatch ≠ [] := by
  unfold joinMatches
  by_cases h : tpMatch.length = 0
  · simp [h]
  · have hne : tpMatch ≠ [] := fun h0 => h (by rw [h0]; rfl)
    simp [h, hne]

theorem joinMatches_clause_pos (nwMatch protoMatch : String) (tpMatch : List String)
    (h : 0 < nwMatch.length ∨ 0 < protoMatch.length ∨
      (tpMatch ≠ [] ∧ ∀ t ∈ tpMatch, 0 < t.length)) :
    ∀ c ∈ joinMatches nwMatch protoMatch tpMatch, 0 < c.length := by
  intro c hc
  unfold joinMatches at hc
  simp only [List.nil_append] at hc
  by_cases hm : 0 < nwMatch.length ∨ 0 < protoMatch.length
  · have hmpos : 0 < (if 0 < protoMatch.length then
          (if 0 < (if 0 < nwMatch.length then nwMatch else "").length then
              (if 0 < nwMatch.length then nwMatch else "") ++ ","
            else (if 0 < nwMatch.length then nwMatch else "")) ++ protoMatch
        else (if 0 < nwMatch.length then nwMatch else "")).length := by
      by_cases hp : 0 < protoMatch.length
      · rw [if_pos hp, String.length_append]; omega
      · rw [if_neg hp]
        rcases hm with h1 | h1
        · rw [if_pos h1]; exact h1
        · exact absurd h1 hp
    by_cases ht : tpMatch.length = 0
    · rw [if_pos ht] at hc
      rw [List.mem_singleton.1 hc]
      exact hmpos
    · rw [if_neg ht] at hc
      obtain ⟨t, _, rfl⟩ := List.mem_map.1 hc
      rw [if_pos hmpos, String.length_append, String.length_append]
      omega
  · have h3 : tpMatch ≠ [] ∧ ∀ t ∈ tpMatch, 0 < t.length := by
      rcases h with h1 | h1 | h1
      · exact absurd (Or.inl h1) hm
      · exact absurd (Or.inr h1) hm
      · exact h1
    have ht : ¬ tpMatch.length = 0 := fun h0 => h3.1 (List.length_eq_zero.1 h0)
    have hn0 : ¬ 0 < nwMatch.length := fun h0 => hm (Or.inl h0)
    have hp0 : ¬ 0 < protoMatch.length := fun h0 => hm (Or.inr h0)
    have he0 : ¬ 0 < "".length := by decide
    simp only [if_neg ht, if_neg hn0, if_neg hp0, if_neg he0, List.map_id'] at hc
    exact h3.2 c hc

theorem addressMatch_family (M : String → Bool) (r : secrules.SecurityRule) :
    (r.IPNet = none ∧
      addressMatch M (directionFields r.Direction).1 (directionFields r.Direction).2.1 r.IPNet =
        ("", "")) ∨
    (∃ a, 0 < a.length ∧
      (addressMatch M (directionFields r.Direction).1 (directionFields r.Direction).2.1 r.IPNet =
        ("ipv6", a) ∨
       addressMatch M (directionFields r.Direction).1 (directionFields r.Direction).2.1 r.IPNet =
        ("ip", a))) := by
  have hcase : r.IPNet = none ∨ ∃ n, r.IPNet = some n := by
    cases r.IPNet with
    | none => exact Or.inl rfl
    | some n => exact Or.inr ⟨n, rfl⟩
  rcases hcase with hn | ⟨n, hn⟩
  · exact Or.inl ⟨hn, (addressMatch_none M r hn).2⟩
  · obtain ⟨a, _, hpos, hm⟩ := addressMatch_some M r n hn
    refine Or.inr ⟨a, hpos, ?_⟩
    cases hv : M n.netStr with
    | true => left; rw [hm, hv]; rfl
    | false => right; rw [hm, hv]; rfl

theorem computeMatches_clause_pos (M : String → Bool) (r : secrules.SecurityRule)
    (hproto : r.Protocol = PROTO_ANY ∨ r.Protocol = PROTO_TCP ∨ r.Protocol = PROTO_UDP ∨
      r.Protocol = PROTO_ICMP) (ms : List String) (hms : computeMatches M r = some ms) :
    ∀ c ∈ ms, 0 < c.length := by
  unfold computeMatches at hms
  obtain ⟨pt, hpt⟩ := protocolMatch_total r (directionFields r.Direction).2.2
    (addressMatch M (directionFields r.Direction).1 (directionFields r.Direction).2.1 r.IPNet).1
    (addressMatch M (directionFields r.Direction).1 (directionFields r.Direction).2.1 r.IPNet).2
  simp only [hpt, Option.some.injEq] at hms
  subst hms
  apply joinMatches_clause_pos
  rcases addressMatch_family M r with ⟨_, hm⟩ | ⟨a, hpos, hm⟩
  · rw [hm] at hpt ⊢
    simp only at hpt ⊢
    right
    rcases hproto with h | h | h | h
    · rw [protocolMatch_any _ _ _ _ h] at hpt
      have := Option.some.inj hpt
      subst this
      right
      refine ⟨by decide, ?_⟩
      intro t ht
      have ht2 : t = "ipv6" ∨ t = "ip" := by simpa using ht
      rcases ht2 with rfl | rfl <;> decide
    · rw [protocolMatch_tcp_udp _ _ _ _ (Or.inl h)] at hpt
      left
      have hp : pt.1 = r.Protocol := by
        split at hpt
        · cases hq : PortRangeToMasks (toU16 r.PortStart) (toU16 r.PortEnd) with
          | none => rw [hq] at hpt; cases hpt
          | some l => rw [hq] at hpt; exact (congrArg Prod.fst (Option.some.inj hpt)).symm
        · exact (congrArg Prod.fst (Option.some.inj hpt)).symm
      rw [hp, h]; decide
    · rw [protocolMatch_tcp_udp _ _ _ _ (Or.inr h)] at hpt
      left
      have hp : pt.1 = r.Protocol := by
        split at hpt
        · cases hq : PortRangeToMasks (toU16 r.PortStart) (toU16 r.PortEnd) with
          | none => rw [hq] at hpt; cases hpt
          | some l => rw [hq] at hpt; exact (congrArg Prod.fst (Option.some.inj hpt)).symm
        · exact (congrArg Prod.fst (Option.some.inj hpt)).symm
      rw [hp, h]; decide
    · rw [protocolMatch_icmp _ _ _ _ h] at hpt
      have h1 : ¬ ("" = "ipv6") := by decide
      have h2 : ¬ ("" = "ip") := by decide
      rw [if_neg h1, if_neg h2] at hpt
      have := Option.some.inj hpt
      subst this
      right
      refine ⟨by decide, ?_⟩
      intro t ht
      have ht2 : t = "icmp" ∨ t = "icmp6" := by simpa using ht
      rcases ht2 with rfl | rfl <;> decide
  · left
    rcases hm with hm | hm <;> rw [hm] <;> exact hpos

/-- C20: on a record with an empty cache `OvsMatches` returns a list that is never
empty and stores it in the cache; when the protocol is `any`, `tcp`, `udp` or
`icmp`, no clause of the list is the empty string. -/
theorem OvsMatches_nonempty (M : String → Bool) (r : secrules.SecurityRule) :
    ∃ ms sr1, SecurityRule.OvsMatches M { r := r, ovsMatches := none } = some (ms, sr1) ∧
      ms ≠ [] ∧ 1 ≤ ms.length ∧ sr1.ovsMatches = some ms ∧
      (r.Protocol = PROTO_ANY ∨ r.Protocol = PROTO_TCP ∨ r.Protocol = PROTO_UDP ∨
          r.Protocol = PROTO_ICMP →
        ∀ c ∈ ms, c ≠ "") := by
  obtain ⟨ms, hms⟩ := computeMatches_total M r
  have hne : ms ≠ [] := by
    have h := hms
    unfold computeMatches at h
    obtain ⟨pt, hpt⟩ := protocolMatch_total r (directionFields r.Direction).2.2
      (addressMatch M (directionFields r.Direction).1 (directionFields r.Direction).2.1 r.IPNet).1
      (addressMatch M (directionFields r.Direction).1 (directionFields r.Direction).2.1 r.IPNet).2
    simp only [hpt, Option.some.injEq] at h
    rw [← h]
    exact joinMatches_ne_nil _ _ _
  refine ⟨ms, { r := r, ovsMatches := some ms }, ?_, hne, List.length_pos.2 hne, rfl, ?_⟩
  · unfold SecurityRule.OvsMatches
    simp only [hms]
  · intro hproto c hc hempty
    have := computeMatches_clause_pos M r hproto ms hms c hc
    rw [hempty] at this
    exact absurd this (by decide)

/-- Instance of C20: the inbound icmp rule without address compiles to two
non-empty clauses. -/
theorem OvsMatches_nonempty_witness :
    ∃ ms sr1, SecurityRule.OvsMatches sampleMatchCIDR6
        { r := sampleRule DIR_IN SecurityRuleAllow "icmp", ovsMatches := none } = some (ms, sr1) ∧
      ms ≠ [] ∧ ∀ c ∈ ms, c ≠ "" := by
  obtain ⟨ms, sr1, h1, h2, _, _, h5⟩ :=
    OvsMatches_nonempty sampleMatchCIDR6 (sampleRule DIR_IN SecurityRuleAllow "icmp")
  exact ⟨ms, sr1, h1, h2, h5 (Or.inr (Or.inr (Or.inr rfl)))⟩

theorem computeMatches_of_tokens (M : String → Bool) (r : secrules.SecurityRule)
    (proto : String) (toks : List String) (hp : 0 < proto.length) (htoks : toks ≠ [])
    (hpm : ∀ nwProto nwMatch, protocolMatch r "tp_dst=" nwProto nwMatch =
      some (proto, toks.map (fun t => "tp_dst=" ++ t))) :
    computeMatches M r =
      some (toks.map (fun t => baseConjunction M r proto ++ ",tp_dst=" ++ t)) := by
  have hpne : ¬ proto = "" := by
    intro h0; rw [h0] at hp; exact absurd hp (by decide)
  have htp : toks.map (fun t => "tp_dst=" ++ t) ≠ [] := by simpa using htoks
  unfold computeMatches
  simp only [directionFields_tp, hpm]
  rw [joinMatches_cons _ _ _ htp hp, List.map_map]
  congr 1
  apply List.map_congr_left
  intro t _
  have hcase : r.IPNet = none ∨ ∃ n, r.IPNet = some n := by
    cases r.IPNet with
    | none => exact Or.inl rfl
    | some n => exact Or.inr ⟨n, rfl⟩
  rcases hcase with hn | ⟨n, hn⟩
  · obtain ⟨ha, hm⟩ := addressMatch_none M r hn
    simp only [Function.comp, hm, baseConjunction, ha]
    have : ¬ 0 < "".length := by decide
    rw [if_neg this, append_tp_dst]
  · obtain ⟨a, ha, hapos, hm⟩ := addressMatch_some M r n hn
    simp only [Function.comp, hm, baseConjunction, ha]
    rw [if_pos hapos, if_neg hpne, append_tp_dst]

theorem computeMatches_ports (M : String → Bool) (r : secrules.SecurityRule)
    (hproto : r.Protocol = PROTO_TCP ∨ r.Protocol = PROTO_UDP) (hports : r.Ports ≠ [])
    (hnr : ¬ (0 < r.PortStart ∧ r.PortStart ≤ r.PortEnd)) :
    computeMatches M r = some (r.Ports.map (fun p =>
      baseConjunction M r r.Protocol ++ ",tp_dst=" ++ toString p)) := by
  have hplen : 0 < r.Protocol.length := by
    rcases hproto with h | h <;> rw [h] <;> decide
  have h := computeMatches_of_tokens M r r.Protocol (r.Ports.map (fun p => toString p)) hplen
    (by simpa using hports) (by
      intro nwProto nwMatch
      rw [protocolMatch_tcp_udp r _ _ _ hproto, if_neg hnr, List.map_map]
      rfl)
  rw [h, List.map_map]
  rfl

/-- C11: an inbound tcp or udp rule with an address, a non-empty explicit port
list and no port range compiles to exactly one clause per port, in the order of
the list: the address token, the protocol name and `tp_dst=` with the decimal
port.  For an IPv4 network that is not a /32 host the address token is
`ip,nw_src=` with the network in `address/prefixlen` form; for a /32 host
(and for an IPv6 /128 host, with `ipv6,ipv6_src=`) it carries the bare address. -/
theorem OvsMatches_ports (M : String → Bool) (r : secrules.SecurityRule) (n : IPNet)
    (hdir : r.Direction = DIR_IN)
    (hproto : r.Protocol = PROTO_TCP ∨ r.Protocol = PROTO_UDP)
    (hnet : r.IPNet = some n) (hports : r.Ports ≠ [])
    (hnr : ¬ (0 < r.PortStart ∧ r.PortStart ≤ r.PortEnd)) :
    (M n.netStr = false → ¬ (n.ones = 32 ∧ n.bits = 32) →
      (SecurityRule.OvsMatches M { r := r, ovsMatches := none }).map Prod.fst =
        some (r.Ports.map (fun p =>
          "ip,nw_src=" ++ n.netStr ++ "," ++ r.Protocol ++ ",tp_dst=" ++ toString p))) ∧
    (M n.netStr = false → (n.ones = 32 ∧ n.bits = 32) →
      (SecurityRule.OvsMatches M { r := r, ovsMatches := none }).map Prod.fst =
        some (r.Ports.map (fun p =>
          "ip,nw_src=" ++ n.ipStr ++ "," ++ r.Protocol ++ ",tp_dst=" ++ toString p))) ∧
    (M n.netStr = true → (n.ones = 128 ∧ n.bits = 128) →
      (SecurityRule.OvsMatches M { r := r, ovsMatches := none }).map Prod.fst =
        some (r.Ports.map (fun p =>
          "ipv6,ipv6_src=" ++ n.ipStr ++ "," ++ r.Protocol ++ ",tp_dst=" ++ toString p))) := by
  have hpne : ¬ r.Protocol = "" := by
    rcases hproto with h | h <;> rw [h] <;> decide
  rw [OvsMatches_fresh, computeMatches_ports M r hproto hports hnr]
  refine ⟨?_, ?_, ?_⟩
  · intro hv hhost
    have ha : addressToken M r = some ("ip,nw_src=" ++ n.netStr) := by
      simp [addressToken, hnet, hdir, hv, hhost]
    simp only [baseConjunction, ha, if_neg hpne]
  · intro hv hhost
    have ha : addressToken M r = some ("ip,nw_src=" ++ n.ipStr) := by
      simp [addressToken, hnet, hdir, hv, hhost]
    simp only [baseConjunction, ha, if_neg hpne]
  · intro hv hhost
    have ha : addressToken M r = some ("ipv6,ipv6_src=" ++ n.ipStr) := by
      simp [addressToken, hnet, hdir, hv, hhost]
    simp only [baseConjunction, ha, if_neg hpne]

/-- Instance of C11: the rule parsed from `in:allow tcp,ports=80 10.0.0.0/24`
compiles to the single clause `ip,nw_src=10.0.0.0/24,tcp,tp_dst=80`. -/
theorem OvsMatches_ports_witness :
    sampleParse "in:allow tcp,ports=80 10.0.0.0/24" =
      .ok { sampleRule DIR_IN SecurityRuleAllow "tcp" with
            IPNet := some sampleNet, Ports := [80] } ∧
    (SecurityRule.OvsMatches sampleMatchCIDR6
      { r := { sampleRule DIR_IN SecurityRuleAllow "tcp" with
               IPNet := some sampleNet, Ports := [80] },
        ovsMatches := none }).map Prod.fst =
      some ["ip,nw_src=10.0.0.0/24,tcp,tp_dst=80"] :=
  ⟨rfl, by
    have h := (OvsMatches_ports sampleMatchCIDR6
      { sampleRule DIR_IN SecurityRuleAllow "tcp" with IPNet := some sampleNet, Ports := [80] }
      sampleNet rfl (Or.inl rfl) rfl (by decide) (by decide)).1 (by decide) (by decide)
    rw [h]
    decide⟩

theorem joinMatches_factor (protoMatch : String) (tpMatch : List String) :
    ∃ suffixes : List String, ∀ nwMatch : String, 0 < nwMatch.length →
      joinMatches nwMatch protoMatch tpMatch = suffixes.map (fun t => nwMatch ++ t) := by
  by_cases ht : tpMatch = []
  · subst ht
    refine ⟨[if 0 < protoMatch.length then "," ++ protoMatch else ""], ?_⟩
    intro nw hnw
    rw [joinMatches_nil nw protoMatch hnw]
    by_cases hp : 0 < protoMatch.length
    · simp [hp, String.append_assoc]
    · simp [hp]
  · by_cases hp : 0 < protoMatch.length
    · refine ⟨tpMatch.map (fun t => "," ++ protoMatch ++ "," ++ t), ?_⟩
      intro nw hnw
      rw [joinMatches_cons nw protoMatch tpMatch ht hp, List.map_map]
      apply List.map_congr_left
      intro t _
      simp [hnw, String.append_assoc]
    · refine ⟨tpMatch.map (fun t => "," ++ t), ?_⟩
      intro nw hnw
      have hlen : ¬ tpMatch.length = 0 := fun h0 => ht (List.length_eq_zero.1 h0)
      unfold joinMatches
      simp [hlen, hnw, hp, String.append_assoc]

theorem protocolMatch_nw_congr (r : secrules.SecurityRule) (tpField nwProto nw1 nw2 : String)
    (h1 : 0 < nw1.length) (h2 : 0 < nw2.length) :
    protocolMatch r tpField nwProto nw1 = protocolMatch r tpField nwProto nw2 := by
  have e1 : ¬ nw1.length = 0 := by omega
  have e2 : ¬ nw2.length = 0 := by omega
  unfold protocolMatch
  simp only [e1, e2, if_false]

theorem protocolMatch_direction (r : secrules.SecurityRule) (d : TSecurityRuleDirection)
    (tpField nwProto nwMatch : String) :
    protocolMatch { r with Direction := d } tpField nwProto nwMatch =
      protocolMatch r tpField nwProto nwMatch := rfl

/-- C15: two rules that differ only in their direction compile to the same clauses
up to the address field.  Without an address the two results are equal.  With an
address there is one list of suffixes such that the inbound clauses are the inbound
address token followed by each suffix and the outbound clauses are the outbound
address token followed by the same suffix, where the two tokens hold the same
address after `ip,nw_src=` and `ip,nw_dst=`, or after `ipv6,ipv6_src=` and
`ipv6,ipv6_dst=`.  The port field is `tp_dst=` in both directions. -/
theorem OvsMatches_direction (M : String → Bool) (r : secrules.SecurityRule) :
    (r.IPNet = none →
      (SecurityRule.OvsMatches M
        { r := { r with Direction := DIR_IN }, ovsMatches := none }).map Prod.fst =
      (SecurityRule.OvsMatches M
        { r := { r with Direction := DIR_OUT }, ovsMatches := none }).map Prod.fst) ∧
    (∀ n, r.IPNet = some n →
      ∃ (addr : String) (suffixes : List String) (tin tout : String),
        addressToken M { r with Direction := DIR_IN } = some tin ∧
        addressToken M { r with Direction := DIR_OUT } = some tout ∧
        ((tin = "ip,nw_src=" ++ addr ∧ tout = "ip,nw_dst=" ++ addr) ∨
         (tin = "ipv6,ipv6_src=" ++ addr ∧ tout = "ipv6,ipv6_dst=" ++ addr)) ∧
        (SecurityRule.OvsMatches M
          { r := { r with Direction := DIR_IN }, ovsMatches := none }).map Prod.fst =
          some (suffixes.map (fun t => tin ++ t)) ∧
        (SecurityRule.OvsMatches M
          { r := { r with Direction := DIR_OUT }, ovsMatches := none }).map Prod.fst =
          some (suffixes.map (fun t => tout ++ t))) ∧
    (directionFields DIR_IN).2.2 = "tp_dst=" ∧ (directionFields DIR_OUT).2.2 = "tp_dst=" := by
  simp only [OvsMatches_fresh]
  refine ⟨?_, ?_, rfl, rfl⟩
  · intro hn
    unfold computeMatches
    have h1 := (addressMatch_none M { r with Direction := DIR_IN } hn).2
    have h2 := (addressMatch_none M { r with Direction := DIR_OUT } hn).2
    simp only [h1, h2, directionFields_tp, protocolMatch_direction]
  · intro n hn
    obtain ⟨tin, htin, hpin, hmin⟩ := addressMatch_some M { r with Direction := DIR_IN } n hn
    obtain ⟨tout, htout, hpout, hmout⟩ :=
      addressMatch_some M { r with Direction := DIR_OUT } n hn
    obtain ⟨pt, hpt⟩ := protocolMatch_total r "tp_dst="
      (if M n.netStr then "ipv6" else "ip") tin
    have hpt2 : protocolMatch r "tp_dst=" (if M n.netStr then "ipv6" else "ip") tout = some pt := by
      rw [← hpt]
      exact protocolMatch_nw_congr r _ _ _ _ hpout hpin
    obtain ⟨suffixes, hsuf⟩ := joinMatches_factor pt.1 pt.2
    refine ⟨if (if M n.netStr then n.ones = 128 ∧ n.bits = 128 else n.ones = 32 ∧ n.bits = 32)
        then n.ipStr else n.netStr, suffixes, tin, tout, htin, htout, ?_, ?_, ?_⟩
    · cases hv : M n.netStr with
      | false =>
        left
        simp only [addressToken, hn, hv, Option.some.injEq] at htin htout
        rw [← htin, ← htout]
        simp
      | true =>
        right
        simp only [addressToken, hn, hv, Option.some.injEq] at htin htout
        rw [← htin, ← htout]
        simp
    · unfold computeMatches
      simp only [hmin, directionFields_tp, protocolMatch_direction, hpt]
      rw [hsuf tin hpin]
    · unfold computeMatches
      simp only [hmout, directionFields_tp, protocolMatch_direction, hpt2]
      rw [hsuf tout hpout]

/-- Instance of C15: the tcp rule with the range 10..19 and no address compiles to
the same clauses in both directions, and the tcp rule on 10.0.0.0/24 with port 80
differs between the directions in the address field alone. -/
theorem OvsMatches_direction_witness :
    (SecurityRule.OvsMatches sampleMatchCIDR6
      { r := { { sampleRule DIR_IN SecurityRuleAllow "tcp" with PortStart := 10, PortEnd := 19 }
               with Direction := DIR_IN }, ovsMatches := none }).map Prod.fst =
    (SecurityRule.OvsMatches sampleMatchCIDR6
      { r := { { sampleRule DIR_IN SecurityRuleAllow "tcp" with PortStart := 10, PortEnd := 19 }
               with Direction := DIR_OUT }, ovsMatches := none }).map Prod.fst ∧
    (SecurityRule.OvsMatches sampleMatchCIDR6
      { r := { sampleRule DIR_IN SecurityRuleAllow "tcp" with
               IPNet := some sampleNet, Ports := [80] },
        ovsMatches := none }).map Prod.fst =
      some ["ip,nw_src=10.0.0.0/24,tcp,tp_dst=80"] ∧
    (SecurityRule.OvsMatches sampleMatchCIDR6
      { r := { sampleRule DIR_OUT SecurityRuleAllow "tcp" with
               IPNet := some sampleNet, Ports := [80] },
        ovsMatches := none }).map Prod.fst =
      some ["ip,nw_dst=10.0.0.0/24,tcp,tp_dst=80"] :=
  ⟨(OvsMatches_direction sampleMatchCIDR6
      { sampleRule DIR_IN SecurityRuleAllow "tcp" with PortStart := 10, PortEnd := 19 }).1 rfl,
   by decide, by decide⟩
end utils
